import Mathlib

/-!
# Verification of the terrain generator core

A shallow embedding, over exact rational arithmetic, of the mesh/height-field
core of the terrain repository (`water.js`, `cities.js`, `height.js`) together
with theorems settling the frozen claims about it.

Conventions of the embedding:
* JS numbers are modelled by `ℚ`.  Where a JS expression can produce a
  non-finite value that a claim depends on (division by zero in `normalize`,
  reading past the end of an array in `add`), the affected definition returns
  `Option ℚ`, with `none` standing for NaN/undefined.
* `Math.sqrt` does not stay inside `ℚ`, so every definition that uses it
  (`distance`, `getSlope`, `erosionRate`, `erode`, `weight`,
  `getTerritories`) is parametric in a square-root model `sq : ℚ → ℚ`;
  theorems that need facts about it take them as hypotheses
  (e.g. `sq 0 = 0`, nonnegativity on nonnegative inputs).
* The unbounded `while (true)` loops of `fillSinks` and `getTerritories`
  are given step-indexed semantics: a `fuel` parameter with `none` meaning
  "did not finish within `fuel` iterations".  The loop body is translated
  literally.
* The memoised downhill cache is pure memoisation (the spec says it must not
  be relied upon), so `downhill` is embedded as the recomputation.
-/

set_option linter.unusedVariables false
set_option maxRecDepth 4000

namespace Terrain

/-- A 2D point, the JS `[x, y]` pair. -/
abbrev Point := ℚ × ℚ

/-- The extent rectangle (`defaultExtent`-style object). -/
structure Extent where
  width : ℚ
  height : ℚ
deriving DecidableEq

/-- The mesh produced by `makeMesh`: vertex positions `vxs`, adjacency lists
`adj`, per-vertex tessellation-origin points `tris`, the edge list
(`[e0, e1, e.left, e.right]`, with `e.right` possibly absent) and the extent.
(`pts`/`vor` are only carried along in the JS object and are not read by any
function under verification, so they are not modelled.) -/
structure Mesh where
  vxs : List Point
  adj : List (List Nat)
  tris : List (List Point)
  edges : List (Nat × Nat × Point × Option Point)
  extent : Extent
deriving DecidableEq

/-- JS array read `h[i]` of a height/flux map (in range in all verified
uses; defaults to 0). -/
def hget (h : List ℚ) (i : Nat) : ℚ := h.getD i 0

/-- Vertex position `mesh.vxs[i]`. -/
def vx (mesh : Mesh) (i : Nat) : Point := mesh.vxs.getD i (0, 0)

/-- JS `neighbours(mesh, i)`: the entries of `mesh.adj[i]` (the JS function
copies the list; the copy is the identity here). -/
def neighbours (mesh : Mesh) (i : Nat) : List Nat := mesh.adj.getD i []

/-- JS `isedge(mesh, i)`: an edge (boundary) vertex has fewer than 3 neighbours. -/
def isedge (mesh : Mesh) (i : Nat) : Bool := (neighbours mesh i).length < 3

/-- JS `isnearedge(mesh, i)`: the position lies in the outer 5% of the extent. -/
def isnearedge (mesh : Mesh) (i : Nat) : Bool :=
  let x := (vx mesh i).1
  let y := (vx mesh i).2
  let w := mesh.extent.width
  let h := mesh.extent.height
  decide (x < -0.45 * w) || decide (x > 0.45 * w) ||
  decide (y < -0.45 * h) || decide (y > 0.45 * h)

/-- JS `d3.min` of a (nonempty, in all uses) numeric array. -/
def d3min : List ℚ → ℚ
  | [] => 0
  | x :: xs => xs.foldl min x

/-- JS `d3.max` of a (nonempty, in all uses) numeric array. -/
def d3max : List ℚ → ℚ
  | [] => 0
  | x :: xs => xs.foldl max x

/-- JS floating-point division, with `none` standing for the non-finite
result (NaN or ±Infinity) JS produces when the divisor is zero. -/
def jsdiv (a b : ℚ) : Option ℚ := if b = 0 then none else some (a / b)

/-- JS `normalize(h)`: rescale every value by `(x - lo) / (hi - lo)` where
`lo`/`hi` are the field's min/max. -/
def normalize (h : List ℚ) : List (Option ℚ) :=
  let lo := d3min h
  let hi := d3max h
  h.map (fun x => jsdiv (x - lo) (hi - lo))

/-- JS array read `f[i]` that may fall off the end of the array: `none`
models `undefined`. -/
def jsread (f : List ℚ) (i : Nat) : Option ℚ := f[i]?

/-- JS `add(...)`: elementwise sum of its argument maps over the index range of
the first one; a read past the end of an operand (`undefined`) poisons the
entry the way NaN does in JS.  No mesh/length agreement is checked. -/
def add (fields : List (List ℚ)) : List (Option ℚ) :=
  match fields with
  | [] => []
  | f0 :: _ =>
    (List.range f0.length).map (fun i =>
      fields.foldl (fun acc f => acc.bind (fun s => (jsread f i).map (fun v => s + v)))
        (some 0))

/-- The neighbour scan inside `downfrom`: running best index/height, the
first strictly-lower neighbour winning ties (the JS `<` comparison). -/
def downScan (h : List ℚ) : List Nat → Int → ℚ → Int
  | [], best, _ => best
  | j :: rest, best, besth =>
    if hget h j < besth then downScan h rest (Int.ofNat j) (hget h j)
    else downScan h rest best besth

/-- JS `downfrom(i)`: `-2` at an edge vertex, `-1` at a local minimum, else the
index of the lowest strictly-lower neighbour. -/
def downfrom (mesh : Mesh) (h : List ℚ) (i : Nat) : Int :=
  if isedge mesh i then -2
  else downScan h (neighbours mesh i) (-1) (hget h i)

/-- JS `downhill(h)`, recomputed (the JS attaches a pure memo cache which the
spec forbids relying on). -/
def downhill (mesh : Mesh) (h : List ℚ) : List Int :=
  (List.range h.length).map (downfrom mesh h)

/-- The downhill target of `i` as an `Option`: `some t` exactly when
`downhill[i] ≥ 0`. -/
def dhTarget (mesh : Mesh) (h : List ℚ) (i : Nat) : Option Nat :=
  match downfrom mesh h i with
  | Int.ofNat t => some t
  | _ => none

/-- JS `trislope(h, i)`: the closed-form solution of the 2×2 system built from
the vertex's three neighbours; `[0, 0]` when the neighbour count is not 3. -/
def trislope (mesh : Mesh) (h : List ℚ) (i : Nat) : ℚ × ℚ :=
  match neighbours mesh i with
  | [n0, n1, n2] =>
    let p0 := vx mesh n0
    let p1 := vx mesh n1
    let p2 := vx mesh n2
    let x1 := p1.1 - p0.1
    let x2 := p2.1 - p0.1
    let y1 := p1.2 - p0.2
    let y2 := p2.2 - p0.2
    let det := x1 * y2 - x2 * y1
    let h1 := hget h n1 - hget h n0
    let h2 := hget h n2 - hget h n0
    ((y2 * h1 - y1 * h2) / det, (-x2 * h1 + x1 * h2) / det)
  | _ => (0, 0)

/-- The determinant of the 2×2 sample system at the three neighbours
`n0, n1, n2` (the `det` of `trislope`). -/
def triDet (mesh : Mesh) (n0 n1 n2 : Nat) : ℚ :=
  ((vx mesh n1).1 - (vx mesh n0).1) * ((vx mesh n2).2 - (vx mesh n0).2) -
  ((vx mesh n2).1 - (vx mesh n0).1) * ((vx mesh n1).2 - (vx mesh n0).2)

/-! ## fillSinks -/

/-- The 999999 "infinity" sentinel of `fillSinks`. -/
def sentinel : ℚ := 999999

/-- The initial array of `fillSinks`: near-edge vertices keep their true
height, every other vertex starts at the sentinel. -/
def fillInit (mesh : Mesh) (h : List ℚ) : List ℚ :=
  (List.range h.length).map (fun i => if isnearedge mesh i then hget h i else sentinel)

/-- The neighbour loop of `fillSinks` for vertex `i`: snap to the true
height and break when `h[i] >= newh[nb] + epsilon`; otherwise lower
`newh[i]` to `newh[nb] + epsilon` when that is between `h[i]` (exclusive)
and the current `newh[i]` (exclusive). -/
def fillScan (h : List ℚ) (ε : ℚ) (i : Nat) : List Nat → List ℚ → Bool → List ℚ × Bool
  | [], newh, changed => (newh, changed)
  | j :: rest, newh, changed =>
    if hget h i ≥ hget newh j + ε then (newh.set i (hget h i), true)
    else
      if hget newh i > hget newh j + ε ∧ hget newh j + ε > hget h i then
        fillScan h ε i rest (newh.set i (hget newh j + ε)) true
      else fillScan h ε i rest newh changed

/-- One vertex of a `fillSinks` pass: vertices already at their true height
are skipped (`continue`). -/
def fillCell (mesh : Mesh) (h : List ℚ) (ε : ℚ) (acc : List ℚ × Bool) (i : Nat) :
    List ℚ × Bool :=
  if hget acc.1 i = hget h i then acc
  else fillScan h ε i (neighbours mesh i) acc.1 acc.2

/-- One full pass of the `fillSinks` relaxation over all vertices, returning
the updated array and the `changed` flag. -/
def fillPass (mesh : Mesh) (h : List ℚ) (ε : ℚ) (newh : List ℚ) : List ℚ × Bool :=
  (List.range h.length).foldl (fillCell mesh h ε) (newh, false)

/-- The `while (true)` loop of `fillSinks`, step-indexed: `none` when the
fixed point is not reached within `fuel` passes.  (The source has no such
bound; `fuel` only gives the unbounded loop a semantics.) -/
def fillLoop (mesh : Mesh) (h : List ℚ) (ε : ℚ) : Nat → List ℚ → Option (List ℚ)
  | 0, _ => none
  | fuel + 1, newh =>
    let p := fillPass mesh h ε newh
    if p.2 then fillLoop mesh h ε fuel p.1 else some p.1

/-- JS `fillSinks(h, epsilon)`. -/
def fillSinks (mesh : Mesh) (h : List ℚ) (ε : ℚ) (fuel : Nat) : Option (List ℚ) :=
  fillLoop mesh h ε fuel (fillInit mesh h)

/-! ## getFlux -/

/-- Insert an index into a list already sorted by descending height. -/
def insDesc (h : List ℚ) (j : Nat) : List Nat → List Nat
  | [] => [j]
  | k :: ks => if hget h j ≤ hget h k then k :: insDesc h j ks else j :: k :: ks

/-- Sort vertex indices by descending height — the JS
`idxs.sort((a, b) => h[b] - h[a])`.  The comparator fixes the order only up
to ties and the theorems below hold for every conforming order. -/
def sortDesc (h : List ℚ) (l : List Nat) : List Nat := l.foldr (insDesc h) []

/-- One accumulation step of `getFlux`:
`if (dh[j] >= 0) flux[dh[j]] += flux[j]`. -/
def fluxStep (mesh : Mesh) (h : List ℚ) (flux : List ℚ) (j : Nat) : List ℚ :=
  match dhTarget mesh h j with
  | some t => flux.set t (hget flux t + hget flux j)
  | none => flux

/-- JS `getFlux(h)`: equal rainfall `1/h.length` everywhere, then every vertex,
in descending height order, pushes its accumulated flux into its downhill
target. -/
def getFlux (mesh : Mesh) (h : List ℚ) : List ℚ :=
  let n := h.length
  (sortDesc h (List.range n)).foldl (fluxStep mesh h) (List.replicate n (1 / (n : ℚ)))

/-! ## getRivers -/

/-- The threshold actually used by `getRivers`:
`limit * (number of vertices above sea level) / h.length`. -/
def riverLimit (h : List ℚ) (limit : ℚ) : ℚ :=
  limit * ((((List.range h.length).filter (fun i => 0 < hget h i)).length : ℚ) /
    (h.length : ℚ))

/-- The body of the `getRivers` emission loop for vertex `i` (`none` when no
segment is emitted): near-edge vertices are skipped, a segment needs
`flux[i] > limit`, `h[i] > 0` and `dh[i] >= 0`, and a below-sea downhill
target truncates the segment to the midpoint. -/
def riverSegment (mesh : Mesh) (h flux : List ℚ) (limit : ℚ) (i : Nat) :
    Option (Point × Point) :=
  if isnearedge mesh i then none
  else
    match dhTarget mesh h i with
    | some t =>
      if hget flux i > limit ∧ hget h i > 0 then
        let up := vx mesh i
        let down := vx mesh t
        if hget h t > 0 then some (up, down)
        else some (up, ((up.1 + down.1) / 2, (up.2 + down.2) / 2))
      else none
    | none => none

/-- JS `getRivers(h, limit)` up to (and excluding) the external
`mergeSegments`/`relaxPath` collaborators: the emitted links. -/
def riverLinks (mesh : Mesh) (h : List ℚ) (limit : ℚ) : List (Point × Point) :=
  let dh := downhill mesh h
  let flux := getFlux mesh h
  (List.range dh.length).filterMap (riverSegment mesh h flux (riverLimit h limit))

/-! ## Slope and erosion (parametric in the `Math.sqrt` model `sq`) -/

/-- JS `distance(mesh, i, j)`, with `Math.sqrt` modelled by `sq`. -/
def distance (sq : ℚ → ℚ) (mesh : Mesh) (i j : Nat) : ℚ :=
  let p := vx mesh i
  let q := vx mesh j
  sq ((p.1 - q.1) * (p.1 - q.1) + (p.2 - q.2) * (p.2 - q.2))

/-- JS `getSlope(h)`: the magnitude of `trislope` per vertex.  (The
downhill-based branch after the unconditional `continue` in the source is
dead code.) -/
def getSlope (sq : ℚ → ℚ) (mesh : Mesh) (h : List ℚ) : List ℚ :=
  (List.range h.length).map (fun i =>
    let s := trislope mesh h i
    sq (s.1 * s.1 + s.2 * s.2))

/-- JS `erosionRate(h)`: `1000 * sqrt(flux) * slope + slope^2`, capped at 200. -/
def erosionRate (sq : ℚ → ℚ) (mesh : Mesh) (h : List ℚ) : List ℚ :=
  let flux := getFlux mesh h
  let slope := getSlope sq mesh h
  (List.range h.length).map (fun i =>
    let river := sq (hget flux i) * hget slope i
    let creep := hget slope i * hget slope i
    let total := 1000 * river + creep
    if total > 200 then 200 else total)

/-- JS `erode(h, amount)`: scale the erosion rates so the maximal one becomes
`amount` and subtract.  The JS divides by `d3.max(er)` unguarded; the
ℚ-embedding inherits `x / 0 = 0` there (JS produces NaN), which the
theorems below avoid by assuming a positive maximal rate. -/
def erode (sq : ℚ → ℚ) (mesh : Mesh) (h : List ℚ) (amount : ℚ) : List ℚ :=
  let er := erosionRate sq mesh h
  let maxr := d3max er
  (List.range h.length).map (fun i => hget h i - amount * (hget er i / maxr))

/-! ## getTerritories -/

/-- An entry of the territory priority queue. -/
structure QEntry where
  score : ℚ
  city : Nat
  vx : Nat

/-- The priority-queue primitive consumed by `getTerritories`: extract a
minimum-score entry (the earliest-queued one among equal scores) and the
remaining queue.  The claims proved below hold for every conforming
extraction choice. -/
def dequeueMin : List QEntry → Option (QEntry × List QEntry)
  | [] => none
  | e :: es =>
    match dequeueMin es with
    | none => some (e, [])
    | some (m, rest) => if e.score ≤ m.score then some (e, es) else some (m, e :: rest)

/-- JS `weight(u, v)` of `getTerritories`. -/
def weight (sq : ℚ → ℚ) (mesh : Mesh) (h flux : List ℚ) (u v : Nat) : ℚ :=
  let horiz := distance sq mesh u v
  let vert0 := hget h v - hget h u
  let vert := if vert0 > 0 then vert0 / 10 else vert0
  let diff0 := 1 + 0.25 * (vert / horiz) ^ 2
  let diff1 := diff0 + 100 * sq (hget flux u)
  let diff := if hget h u ≤ 0 then (100 : ℚ) else diff1
  if (decide (hget h u > 0)) ≠ (decide (hget h v > 0)) then 1000 else horiz * diff

/-- Ownership lookup `terr[v]` (`none` models JS `undefined`). -/
def towner (terr : List (Option Nat)) (v : Nat) : Option Nat := terr.getD v none

/-- The seeding phase of `getTerritories`: each of the first `K` cities owns
itself and travel to each of its neighbours is queued. -/
def terrSeed (sq : ℚ → ℚ) (mesh : Mesh) (h flux : List ℚ) (cities : List Nat)
    (K n : Nat) : List QEntry × List (Option Nat) :=
  (List.range K).foldl
    (fun acc i =>
      let c := cities.getD i 0
      (acc.1 ++ (neighbours mesh c).map (fun v => ⟨weight sq mesh h flux c v, c, v⟩),
       acc.2.set c (some c)))
    ([], List.replicate n none)

/-- The dequeue loop of `getTerritories`, step-indexed: a popped entry whose
target is owned is discarded; otherwise the target is assigned to the
entry's city and its unassigned neighbours are queued with the cumulative
score. -/
def terrLoop (sq : ℚ → ℚ) (mesh : Mesh) (h flux : List ℚ) :
    Nat → List QEntry → List (Option Nat) → Option (List (Option Nat))
  | 0, _, _ => none
  | fuel + 1, queue, terr =>
    match dequeueMin queue with
    | none => some terr
    | some (u, rest) =>
      if (towner terr u.vx).isSome then terrLoop sq mesh h flux fuel rest terr
      else
        let terr2 := terr.set u.vx (some u.city)
        let q2 := rest ++ (neighbours mesh u.vx).filterMap (fun v =>
          if (towner terr2 v).isSome then none
          else some ⟨u.score + weight sq mesh h flux u.vx v, u.city, v⟩)
        terrLoop sq mesh h flux fuel q2 terr2

/-- JS `getTerritories(render)`: `nterrs` clamped to the city count, then the
seeding phase and the dequeue loop.  (The final `terr.mesh` attachment is
plumbing.) -/
def getTerritories (sq : ℚ → ℚ) (mesh : Mesh) (h : List ℚ) (cities : List Nat)
    (nterrs : Nat) (fuel : Nat) : Option (List (Option Nat)) :=
  let K := min nterrs cities.length
  let flux := getFlux mesh h
  let s := terrSeed sq mesh h flux cities K h.length
  terrLoop sq mesh h flux fuel s.1 s.2

/-! ## makeMesh -/

/-- A tessellation edge as consumed by `makeMesh` (`e[0]`, `e[1]`, `e.left`,
`e.right` — the latter absent for extent-boundary edges).  `vor.edges` can
also hold `undefined` entries, hence the `Option` wrapping at use sites. -/
structure VorEdge where
  p0 : Point
  p1 : Point
  left : Point
  right : Option Point

/-- Look up a vertex id by position — the JS `vxids` dictionary keyed by the
point. -/
def vxfind : List Point → Point → Option Nat
  | [], _ => none
  | q :: qs, p => if q = p then some 0 else (vxfind qs p).map (fun k => k + 1)

/-- Sparse-array write `l[i] = x`: pad with `d` up to index `i`, then set. -/
def setPad {α : Type} (l : List α) (i : Nat) (x : α) (d : α) : List α :=
  (l ++ List.replicate (i + 1 - l.length) d).set i x

/-- JS `adj[a] = adj[a] || []; adj[a].push(b)`. -/
def adjPush (adj : List (List Nat)) (a b : Nat) : List (List Nat) :=
  setPad adj a (adj.getD a [] ++ [b]) []

/-- JS `tris[e] = tris[e] || []`, then push `left`, and a present (truthy)
`right`, unless already recorded. -/
def trisPush (tris : List (List Point)) (e : Nat) (left : Point) (right : Option Point) :
    List (List Point) :=
  let t0 := tris.getD e []
  let t1 := if left ∈ t0 then t0 else t0 ++ [left]
  let t2 := match right with
    | some r => if r ∈ t1 then t1 else t1 ++ [r]
    | none => t1
  setPad tris e t2 []

/-- The accumulator of the `makeMesh` edge loop. -/
structure MeshAcc where
  vxs : List Point
  adj : List (List Nat)
  edges : List (Nat × Nat × Point × Option Point)
  tris : List (List Point)

/-- The per-edge step of `makeMesh`: skip `undefined` edges, intern the two
endpoints, record the adjacency both ways, the edge, and the origin points
touching each endpoint. -/
def meshStep (acc : MeshAcc) (oe : Option VorEdge) : MeshAcc :=
  match oe with
  | none => acc
  | some e =>
    let s0 := match vxfind acc.vxs e.p0 with
      | some k => (acc.vxs, k)
      | none => (acc.vxs ++ [e.p0], acc.vxs.length)
    let s1 := match vxfind s0.1 e.p1 with
      | some k => (s0.1, k)
      | none => (s0.1 ++ [e.p1], s0.1.length)
    { vxs := s1.1
      adj := adjPush (adjPush acc.adj s0.2 s1.2) s1.2 s0.2
      edges := acc.edges ++ [(s0.2, s1.2, e.left, e.right)]
      tris := trisPush (trisPush acc.tris s0.2 e.left e.right) s1.2 e.left e.right }

/-- JS `makeMesh(pts, extent)` from the externally computed `vor.edges`: builds
the dual graph.  It performs no validation of the extent or the point count
and returns a mesh unconditionally. -/
def makeMesh (vorEdges : List (Option VorEdge)) (extent : Extent) : Mesh :=
  let acc := vorEdges.foldl meshStep ⟨[], [], [], []⟩
  { vxs := acc.vxs, adj := acc.adj, tris := acc.tris, edges := acc.edges, extent := extent }

/-! ## Shared wellformedness and concrete example inputs -/

/-- Mesh sanity assumed by several theorems: the vertex count agrees with
`n`, neighbour indices are in range and no vertex is its own neighbour. -/
def MeshWF (mesh : Mesh) (n : Nat) : Prop :=
  mesh.vxs.length = n ∧ ∀ i < n, ∀ j ∈ neighbours mesh i, j < n ∧ j ≠ i

instance (mesh : Mesh) (n : Nat) : Decidable (MeshWF mesh n) := by
  unfold MeshWF; infer_instance

/-- A degenerate model of `Math.sqrt`, usable for concrete runs in which
every square-root result is multiplied by zero or its value is otherwise
irrelevant to the property at hand. -/
def sqZero : ℚ → ℚ := fun _ => 0

/-- The identity as a model of `Math.sqrt`: it satisfies the sign facts the
parametric theorems assume, which makes fully concrete witnesses possible. -/
def sqId : ℚ → ℚ := fun x => x

/-- A 4-vertex star whose vertices all sit in the outer 5% of the extent
(all near-edge): the centre 0 has the three neighbours 1, 2, 3 (so it is
not a boundary vertex), each leaf has the single neighbour 0. -/
def meshA : Mesh :=
  { vxs := [(0.48, 0), (0.49, 0.01), (0.48, -0.01), (0.47, 0.02)]
    adj := [[1, 2, 3], [0], [0], [0]]
    tris := []
    edges := []
    extent := ⟨1, 1⟩ }

/-- Heights on `meshA` making the interior centre a strict local minimum. -/
def hA : List ℚ := [0, 1, 1, 1]

/-- Heights on `meshA` for the river counterexample: the centre is above
sea level and has the strictly lower neighbour 1. -/
def hA8 : List ℚ := [1, 1/2, 3/4, 3/4]

/-- A 4-clique in the middle of the extent: no vertex is near-edge and every
vertex has 3 neighbours (no boundary vertices). -/
def meshB : Mesh :=
  { vxs := [(0, 0), (1/10, 0), (0, 1/10), (1/10, 1/10)]
    adj := [[1, 2, 3], [0, 2, 3], [0, 1, 3], [0, 1, 2]]
    tris := []
    edges := []
    extent := ⟨1, 1⟩ }

/-- The all-zero height field on `meshB`. -/
def hB : List ℚ := [0, 0, 0, 0]

/-- A 4-vertex star with an interior (not near-edge) centre 0 and three
near-edge boundary leaves. -/
def meshS : Mesh :=
  { vxs := [(0, 0), (0.48, 0), (-0.48, 0), (0, 0.48)]
    adj := [[1, 2, 3], [0], [0], [0]]
    tris := []
    edges := []
    extent := ⟨1, 1⟩ }

/-- Heights on `meshS`: the centre is a peak that snaps to its true height
during `fillSinks`. -/
def hS : List ℚ := [1, 0, 0, 0]

/-- Heights on `meshS` for the flux counterexample: strictly decreasing
towards leaf 2. -/
def hS3 : List ℚ := [1, 1/2, 1/4, 3/4]

/-- Heights on `meshS` giving the centre a nonzero `trislope` gradient. -/
def hS5 : List ℚ := [0, 1, 0, 0]

/-- The constant height field used for the `normalize` and `erode`
degeneracies. -/
def flatH : List ℚ := [1, 1, 1, 1]

/-- Heights on `meshS` whose centre has a downhill target below sea level. -/
def hS8 : List ℚ := [1, -1, 1, 1]

/-- A single tessellation edge (plus one `undefined` entry), a degenerate
`vor.edges` input: only 2 distinct points. -/
def degenerateEdges : List (Option VorEdge) :=
  [some ⟨(0, 0), (0, 1), (0, 0), none⟩, none]

/-- The state invariant maintained by the `fillSinks` relaxation: the
working array never drops below the true heights, near-edge vertices stay
at their true heights, and every non-near-edge vertex that has reached its
true height did so by finding a neighbour at least `ε` below that height. -/
def FillInv (mesh : Mesh) (h : List ℚ) (ε : ℚ) (newh : List ℚ) : Prop :=
  newh.length = h.length ∧
  (∀ i < h.length, hget h i ≤ hget newh i) ∧
  (∀ i < h.length, isnearedge mesh i = true → hget newh i = hget h i) ∧
  (∀ i < h.length, isnearedge mesh i = false → hget newh i = hget h i →
    ∃ j ∈ neighbours mesh i, hget newh j + ε ≤ hget h i)

/-- Reachability from one of the capital vertices along mesh adjacency. -/
def Reach (mesh : Mesh) (caps : List Nat) (v : Nat) : Prop :=
  ∃ c ∈ caps, Relation.ReflTransGen (fun a b => b ∈ neighbours mesh a) c v

/-! ## Generic list-access lemmas -/

theorem getD_set_self {α : Type} (l : List α) (i : Nat) (v d : α) (hi : i < l.length) :
    (l.set i v).getD i d = v := by
  induction l generalizing i with
  | nil => simp at hi
  | cons a as ih =>
    cases i with
    | zero => rfl
    | succ k =>
      have : (a :: as).set (k + 1) v = a :: as.set k v := rfl
      rw [this, List.getD_cons_succ]
      exact ih k (by simpa using hi)

theorem getD_set_ne {α : Type} (l : List α) (i k : Nat) (v d : α) (hk : k ≠ i) :
    (l.set i v).getD k d = l.getD k d := by
  induction l generalizing i k with
  | nil => simp
  | cons a as ih =>
    cases i with
    | zero =>
      cases k with
      | zero => exact absurd rfl hk
      | succ m => rfl
    | succ n =>
      cases k with
      | zero => rfl
      | succ m =>
        have : (a :: as).set (n + 1) v = a :: as.set n v := rfl
        rw [this, List.getD_cons_succ, List.getD_cons_succ]
        exact ih n m (fun hh => hk (by rw [hh]))

theorem getD_replicate {α : Type} (n k : Nat) (c d : α) :
    (List.replicate n c).getD k d = if k < n then c else d := by
  induction n generalizing k with
  | zero => simp
  | succ m ih =>
    cases k with
    | zero => simp [List.replicate]
    | succ j =>
      have : List.replicate (m + 1) c = c :: List.replicate m c := rfl
      rw [this, List.getD_cons_succ, ih]
      simp [Nat.succ_lt_succ_iff]

theorem getD_map_range {α : Type} (f : Nat → α) (n i : Nat) (d : α) (hi : i < n) :
    ((List.range n).map f).getD i d = f i := by
  rw [List.getD_eq_getElem?_getD, List.getElem?_map, List.getElem?_range hi]
  rfl

theorem hget_set_self (l : List ℚ) (i : Nat) (v : ℚ) (hi : i < l.length) :
    hget (l.set i v) i = v := getD_set_self l i v 0 hi

theorem hget_set_ne (l : List ℚ) (i k : Nat) (v : ℚ) (hk : k ≠ i) :
    hget (l.set i v) k = hget l k := getD_set_ne l i k v 0 hk

/-! ## C6 — normalize -/

/-- C6 (code side of the claim): on the constant field `[1,1,1,1]` the
divisor `hi - lo` of `normalize` is zero and every output entry is the JS
division-by-zero value (NaN) — not the all-zero field the spec prescribes. -/
theorem normalize_flat_nan :
    normalize flatH = [none, none, none, none] ∧ d3max flatH - d3min flatH = 0 := by
  with_unfolding_all decide

/-! ## C2 — fillSinks has no iteration ceiling -/

/-- Unfolding equation of `fillLoop` at nonzero fuel. -/
theorem fillLoop_succ (mesh : Mesh) (h : List ℚ) (ε : ℚ) (fuel : Nat) (newh : List ℚ) :
    fillLoop mesh h ε (fuel + 1) newh =
      (if (fillPass mesh h ε newh).2 then fillLoop mesh h ε fuel (fillPass mesh h ε newh).1
       else some (fillPass mesh h ε newh).1) := rfl

/-- The `List.range 4` literal used by the concrete 4-vertex runs. -/
theorem range_four : List.range 4 = [0, 1, 2, 3] := rfl

/-- C2 (code side of the claim): the literal relaxation rule run at a
concrete input with no near-edge vertex: the loop reaches its fixed point
on the very first pass (every vertex still at the sentinel) and returns it.
`fillSinks` in the source is `while (true)` around `fillPass`: its only
outcome is the converged array; no iteration ceiling exists and no
"did not converge" condition is ever reported. -/
theorem fillSinks_no_ceiling_run :
    fillSinks meshB hB (1/1000) 1 = some [sentinel, sentinel, sentinel, sentinel] := by
  have h0 : fillInit meshB hB = [sentinel, sentinel, sentinel, sentinel] := by
    norm_num [fillInit, range_four, hget, meshB, hB, isnearedge, vx, sentinel]
  have h1 : fillPass meshB hB (1/1000) [sentinel, sentinel, sentinel, sentinel] =
      ([sentinel, sentinel, sentinel, sentinel], false) := by
    norm_num [fillPass, range_four, fillCell, fillScan, hget, neighbours, meshB, hB, sentinel]
  unfold fillSinks
  rw [h0, show (1 : ℕ) = 0 + 1 from rfl, fillLoop_succ, h1]
  rfl

/-! ## C9 — no configuration-error handling -/

/-- C9 (code side of the claim): `makeMesh` on a degenerate input (an extent
of zero width and height, only 2 distinct points) returns a mesh normally
instead of failing with an "invalid mesh configuration" error, and `add` on
operands of mismatched lengths returns a sum array whose out-of-range
entries are NaN (`none`) instead of failing with a "field mismatch" error. -/
theorem no_config_error_raised :
    makeMesh degenerateEdges ⟨0, 0⟩ =
      { vxs := [(0, 0), (0, 1)], adj := [[1], [0]], tris := [[(0, 0)], [(0, 0)]],
        edges := [(0, 1, (0, 0), none)], extent := ⟨0, 0⟩ } ∧
    add [[1, 2, 3, 4], [10, 20]] = [some 11, some 22, none, none] := by
  with_unfolding_all decide

/-! ## C7 — trislope -/

/-- C7: `trislope` returns the zero gradient whenever the vertex does not
have exactly 3 neighbour samples, and otherwise (for a nonsingular sample
system) returns the solution of the 2×2 linear system formed by the two
neighbour-height differences against their position differences —
i.e. the closed-form Cramer's-rule gradient. -/
theorem trislope_cramer (mesh : Mesh) (h : List ℚ) (i : Nat) :
    ((neighbours mesh i).length ≠ 3 → trislope mesh h i = (0, 0)) ∧
    (∀ n0 n1 n2, neighbours mesh i = [n0, n1, n2] → triDet mesh n0 n1 n2 ≠ 0 →
      ((vx mesh n1).1 - (vx mesh n0).1) * (trislope mesh h i).1 +
          ((vx mesh n1).2 - (vx mesh n0).2) * (trislope mesh h i).2 =
        hget h n1 - hget h n0 ∧
      ((vx mesh n2).1 - (vx mesh n0).1) * (trislope mesh h i).1 +
          ((vx mesh n2).2 - (vx mesh n0).2) * (trislope mesh h i).2 =
        hget h n2 - hget h n0) := by
  constructor
  · intro hlen
    rcases hl : neighbours mesh i with _ | ⟨a, _ | ⟨b, _ | ⟨c, _ | ⟨e, l⟩⟩⟩⟩
    · simp [trislope, hl]
    · simp [trislope, hl]
    · simp [trislope, hl]
    · exact absurd (by rw [hl]; rfl) hlen
    · simp [trislope, hl]
  · intro n0 n1 n2 heq hdet
    have e1 : trislope mesh h i =
        ((((vx mesh n2).2 - (vx mesh n0).2) * (hget h n1 - hget h n0) -
            ((vx mesh n1).2 - (vx mesh n0).2) * (hget h n2 - hget h n0)) /
          triDet mesh n0 n1 n2,
         (-((vx mesh n2).1 - (vx mesh n0).1) * (hget h n1 - hget h n0) +
            ((vx mesh n1).1 - (vx mesh n0).1) * (hget h n2 - hget h n0)) /
          triDet mesh n0 n1 n2) := by
      unfold trislope triDet
      rw [heq]
    unfold triDet at hdet
    constructor
    · rw [e1]
      unfold triDet
      field_simp
      ring
    · rw [e1]
      unfold triDet
      field_simp
      ring

/-- Witness for `trislope_cramer` at vertex 0 of `meshS` with heights
`hS5`: the sample system is nonsingular and the returned gradient satisfies
its first equation. -/
theorem trislope_cramer_witness :
    neighbours meshS 0 = [1, 2, 3] ∧ triDet meshS 1 2 3 ≠ 0 ∧
    ((vx meshS 2).1 - (vx meshS 1).1) * (trislope meshS hS5 0).1 +
        ((vx meshS 2).2 - (vx meshS 1).2) * (trislope meshS hS5 0).2 =
      hget hS5 2 - hget hS5 1 :=
  ⟨by with_unfolding_all decide, by with_unfolding_all decide,
    ((trislope_cramer meshS hS5 0).2 1 2 3 (by with_unfolding_all decide)
      (by with_unfolding_all decide)).1⟩

/-! ## Counterexamples refuting C1, C3, C5, C8 as stated -/

/-- C1 counterexample.  On `meshA` every vertex is near-edge, so `fillSinks`
returns the input heights unchanged; its centre vertex 0 is interior
(3 neighbours, not a boundary vertex) yet all of its neighbours are strictly
higher by 1 (far beyond `ε = 1/1000`).  On `meshB` no vertex is near-edge,
so every vertex stays at the 999999 sentinel and the interior vertex 0 is a
`downhill` local minimum (`-1`) of the returned surface. -/
theorem fillSinks_local_min_cex :
    fillSinks meshA hA (1/1000) 1 = some hA ∧
    isedge meshA 0 = false ∧ neighbours meshA 0 = [1, 2, 3] ∧
    hget hA 0 < hget hA 1 ∧ hget hA 0 < hget hA 2 ∧ hget hA 0 < hget hA 3 ∧
    fillSinks meshB hB (1/1000) 1 = some [sentinel, sentinel, sentinel, sentinel] ∧
    isedge meshB 0 = false ∧
    downfrom meshB [sentinel, sentinel, sentinel, sentinel] 0 = -1 := by
  refine ⟨?_, by with_unfolding_all decide, by with_unfolding_all decide,
    by with_unfolding_all decide, by with_unfolding_all decide, by with_unfolding_all decide,
    ?_, by with_unfolding_all decide, by with_unfolding_all decide⟩
  · have h0 : fillInit meshA hA = hA := by
      norm_num [fillInit, range_four, hget, meshA, hA, isnearedge, vx, sentinel]
    have h1 : fillPass meshA hA (1/1000) hA = (hA, false) := by
      norm_num [fillPass, range_four, fillCell, fillScan, hget, neighbours, meshA, hA, sentinel]
    unfold fillSinks
    rw [h0, show (1 : ℕ) = 0 + 1 from rfl, fillLoop_succ, h1]
    rfl
  · have h0 : fillInit meshB hB = [sentinel, sentinel, sentinel, sentinel] := by
      norm_num [fillInit, range_four, hget, meshB, hB, isnearedge, vx, sentinel]
    have h1 : fillPass meshB hB (1/1000) [sentinel, sentinel, sentinel, sentinel] =
        ([sentinel, sentinel, sentinel, sentinel], false) := by
      norm_num [fillPass, range_four, fillCell, fillScan, hget, neighbours, meshB, hB,
        sentinel]
    unfold fillSinks
    rw [h0, show (1 : ℕ) = 0 + 1 from rfl, fillLoop_succ, h1]
    rfl

/-- C3 counterexample.  On `meshS` with heights `hS3` the flux values are
`[1/4, 1/4, 1/2, 1/4]`, which sum to 5/4, while "1.0 minus the flux drained
at boundary vertices" (the boundary vertices are 1, 2, 3) is
`1 - (1/4 + 1/2 + 1/4) = 0`. -/
theorem getFlux_sum_cex :
    getFlux meshS hS3 = [1/4, 1/4, 1/2, 1/4] ∧
    isedge meshS 0 = false ∧ isedge meshS 1 = true ∧ isedge meshS 2 = true ∧
    isedge meshS 3 = true ∧
    (1/4 + 1/4 + 1/2 + 1/4 : ℚ) ≠ 1 - (1/4 + 1/2 + 1/4) := by
  with_unfolding_all decide

/-- C5 counterexample.  On the flat field every `trislope` gradient is zero,
so every erosion rate is 0 and the maximal rate is 0; the scaling division
is then degenerate (JS: `0/0 = NaN`; the ℚ-embedding reads 0) and no vertex
at all decreases by `amount = 1` — the claim predicts exactly one such
vertex.  (The `sqZero` square-root model is exact here: every square root
the computation takes is multiplied by a zero slope, and `sqrt 0 = 0`.) -/
theorem erode_flat_cex :
    erosionRate sqZero meshB flatH = [0, 0, 0, 0] ∧
    d3max (erosionRate sqZero meshB flatH) = 0 ∧
    erode sqZero meshB flatH 1 = flatH ∧ (1 : ℚ) ≠ 0 := by
  with_unfolding_all decide

/-- C8 counterexample.  On `meshA` with heights `hA8` and threshold fraction
0, vertex 0 satisfies all three conditions of the claim — its flux 1/4
exceeds the threshold 0, its height 1 is above sea level, and it has the
valid downhill target 1 — yet it emits no river segment (and `getRivers`
emits none at all), because the source also skips near-edge vertices. -/
theorem riverSegment_nearedge_cex :
    isnearedge meshA 0 = true ∧
    hget (getFlux meshA hA8) 0 > riverLimit hA8 0 ∧
    hget hA8 0 > 0 ∧ dhTarget meshA hA8 0 = some 1 ∧
    riverSegment meshA hA8 (getFlux meshA hA8) (riverLimit hA8 0) 0 = none ∧
    riverLinks meshA hA8 0 = [] := by
  with_unfolding_all decide

/-! ## fillSinks invariants (C1 amended, C10) -/

theorem fillScan_spec (h : List ℚ) (ε : ℚ) (i : Nat) (nbs : List Nat) :
    ∀ (newh : List ℚ) (c : Bool), i < newh.length → (∀ j ∈ nbs, j ≠ i) →
      hget h i ≤ hget newh i →
      (fillScan h ε i nbs newh c).1.length = newh.length ∧
      (∀ k, k ≠ i → hget (fillScan h ε i nbs newh c).1 k = hget newh k) ∧
      hget h i ≤ hget (fillScan h ε i nbs newh c).1 i ∧
      hget (fillScan h ε i nbs newh c).1 i ≤ hget newh i ∧
      (hget newh i ≠ hget h i → hget (fillScan h ε i nbs newh c).1 i = hget h i →
        ∃ j ∈ nbs, hget newh j + ε ≤ hget h i) := by
  induction nbs with
  | nil =>
    intro newh c hi hnb hle
    exact ⟨rfl, fun k _ => rfl, hle, le_refl _, fun hne heq => absurd heq hne⟩
  | cons j rest ih =>
    intro newh c hi hnb hle
    have hji : j ≠ i := hnb j (List.mem_cons_self _ _)
    by_cases hsnap : hget h i ≥ hget newh j + ε
    · simp only [fillScan, if_pos hsnap]
      refine ⟨by simp, fun k hk => hget_set_ne newh i k _ hk, ?_, ?_, ?_⟩
      · rw [hget_set_self newh i _ hi]
      · rw [hget_set_self newh i _ hi]; exact hle
      · intro _ _; exact ⟨j, List.mem_cons_self _ _, hsnap⟩
    · by_cases hlow : hget newh i > hget newh j + ε ∧ hget newh j + ε > hget h i
      · have hlen2 : (newh.set i (hget newh j + ε)).length = newh.length := by simp
        have hne2 : ∀ k, k ≠ i →
            hget (newh.set i (hget newh j + ε)) k = hget newh k :=
          fun k hk => hget_set_ne newh i k _ hk
        have hati : hget (newh.set i (hget newh j + ε)) i = hget newh j + ε :=
          hget_set_self newh i _ hi
        have hle2 : hget h i ≤ hget (newh.set i (hget newh j + ε)) i := by
          rw [hati]; exact le_of_lt hlow.2
        obtain ⟨l1, l2, l3, l4, l5⟩ := ih (newh.set i (hget newh j + ε)) true
          (by rw [hlen2]; exact hi)
          (fun k hk => hnb k (List.mem_cons_of_mem _ hk)) hle2
        simp only [fillScan, if_neg hsnap, if_pos hlow]
        refine ⟨l1.trans hlen2, ?_, l3, ?_, ?_⟩
        · intro k hk; rw [l2 k hk, hne2 k hk]
        · exact le_trans l4 (by rw [hati]; exact le_of_lt hlow.1)
        · intro _ heq
          have hne3 : hget (newh.set i (hget newh j + ε)) i ≠ hget h i := by
            rw [hati]; exact ne_of_gt hlow.2
          obtain ⟨j', hj', hj'le⟩ := l5 hne3 heq
          have hj'i : j' ≠ i := hnb j' (List.mem_cons_of_mem _ hj')
          exact ⟨j', List.mem_cons_of_mem _ hj', by rw [← hne2 j' hj'i]; exact hj'le⟩
      · obtain ⟨l1, l2, l3, l4, l5⟩ := ih newh c hi
          (fun k hk => hnb k (List.mem_cons_of_mem _ hk)) hle
        simp only [fillScan, if_neg hsnap, if_neg hlow]
        refine ⟨l1, l2, l3, l4, fun hne heq => ?_⟩
        obtain ⟨j', hj', hj'le⟩ := l5 hne heq
        exact ⟨j', List.mem_cons_of_mem _ hj', hj'le⟩

theorem fillCell_spec (mesh : Mesh) (h : List ℚ) (ε : ℚ) (acc : List ℚ × Bool) (i : Nat)
    (hi : i < acc.1.length) (hnb : ∀ j ∈ neighbours mesh i, j ≠ i)
    (hle : hget h i ≤ hget acc.1 i) :
    (fillCell mesh h ε acc i).1.length = acc.1.length ∧
    (∀ k, k ≠ i → hget (fillCell mesh h ε acc i).1 k = hget acc.1 k) ∧
    hget h i ≤ hget (fillCell mesh h ε acc i).1 i ∧
    hget (fillCell mesh h ε acc i).1 i ≤ hget acc.1 i ∧
    (hget (fillCell mesh h ε acc i).1 i = hget h i → hget acc.1 i = hget h i ∨
      ∃ j ∈ neighbours mesh i, hget acc.1 j + ε ≤ hget h i) := by
  unfold fillCell
  by_cases hskip : hget acc.1 i = hget h i
  · rw [if_pos hskip]
    exact ⟨rfl, fun k _ => rfl, le_of_eq hskip.symm, le_refl _, fun _ => Or.inl hskip⟩
  · rw [if_neg hskip]
    obtain ⟨l1, l2, l3, l4, l5⟩ :=
      fillScan_spec h ε i (neighbours mesh i) acc.1 acc.2 hi hnb hle
    exact ⟨l1, l2, l3, l4, fun heq => Or.inr (l5 hskip heq)⟩

theorem fillCell_inv (mesh : Mesh) (h : List ℚ) (ε : ℚ) (acc : List ℚ × Bool) (i : Nat)
    (hnb : ∀ j ∈ neighbours mesh i, j ≠ i) (hi : i < h.length)
    (hinv : FillInv mesh h ε acc.1) :
    FillInv mesh h ε (fillCell mesh h ε acc i).1 := by
  obtain ⟨hlen, h1, h2, h3⟩ := hinv
  have hi' : i < acc.1.length := by rw [hlen]; exact hi
  have hle : hget h i ≤ hget acc.1 i := h1 i hi
  obtain ⟨l1, l2, l3, l4, l5⟩ := fillCell_spec mesh h ε acc i hi' hnb hle
  have hmono : ∀ k, hget (fillCell mesh h ε acc i).1 k ≤ hget acc.1 k := by
    intro k
    by_cases hk : k = i
    · rw [hk]; exact l4
    · rw [l2 k hk]
  refine ⟨l1.trans hlen, ?_, ?_, ?_⟩
  · intro m hm
    by_cases hk : m = i
    · rw [hk]; exact l3
    · rw [l2 m hk]; exact h1 m hm
  · intro m hm hne
    by_cases hk : m = i
    · rw [hk]
      exact le_antisymm (le_trans l4 (le_of_eq (h2 i (hk ▸ hm) (hk ▸ hne)))) l3
    · rw [l2 m hk]; exact h2 m hm hne
  · intro m hm hne heq
    by_cases hk : m = i
    · subst hk
      rcases l5 heq with hold | ⟨j, hj, hle2⟩
      · obtain ⟨j, hj, hle2⟩ := h3 m hm hne hold
        exact ⟨j, hj, by rw [l2 j (hnb j hj)]; exact hle2⟩
      · exact ⟨j, hj, by rw [l2 j (hnb j hj)]; exact hle2⟩
    · have hprev : hget acc.1 m = hget h m := by rw [← l2 m hk]; exact heq
      obtain ⟨j, hj, hle2⟩ := h3 m hm hne hprev
      exact ⟨j, hj, le_trans (add_le_add_right (hmono j) ε) hle2⟩

theorem fillFold_inv (mesh : Mesh) (h : List ℚ) (ε : ℚ) :
    ∀ (idxs : List Nat) (acc : List ℚ × Bool),
      (∀ i ∈ idxs, i < h.length ∧ ∀ j ∈ neighbours mesh i, j ≠ i) →
      FillInv mesh h ε acc.1 →
      FillInv mesh h ε (idxs.foldl (fillCell mesh h ε) acc).1 := by
  intro idxs
  induction idxs with
  | nil => intro acc _ hinv; exact hinv
  | cons i rest ih =>
    intro acc hidx hinv
    have hstep := fillCell_inv mesh h ε acc i (hidx i (List.mem_cons_self _ _)).2
      (hidx i (List.mem_cons_self _ _)).1 hinv
    exact ih _ (fun m hm => hidx m (List.mem_cons_of_mem _ hm)) hstep

theorem fillPass_inv (mesh : Mesh) (h : List ℚ) (ε : ℚ)
    (hwf : MeshWF mesh h.length) (newh : List ℚ) (hinv : FillInv mesh h ε newh) :
    FillInv mesh h ε (fillPass mesh h ε newh).1 := by
  unfold fillPass
  refine fillFold_inv mesh h ε (List.range h.length) (newh, false) ?_ hinv
  intro i hi
  have hi' : i < h.length := List.mem_range.mp hi
  exact ⟨hi', fun j hj => (hwf.2 i hi' j hj).2⟩

theorem fillLoop_inv (mesh : Mesh) (h : List ℚ) (ε : ℚ) (hwf : MeshWF mesh h.length) :
    ∀ (fuel : Nat) (newh out : List ℚ), FillInv mesh h ε newh →
      fillLoop mesh h ε fuel newh = some out → FillInv mesh h ε out := by
  intro fuel
  induction fuel with
  | zero => intro newh out _ hrun; exact absurd hrun (by simp [fillLoop])
  | succ fuel ih =>
    intro newh out hinv hrun
    rw [fillLoop_succ] at hrun
    by_cases hc : (fillPass mesh h ε newh).2
    · rw [if_pos hc] at hrun
      exact ih _ _ (fillPass_inv mesh h ε hwf newh hinv) hrun
    · rw [if_neg hc] at hrun
      exact Option.some.inj hrun ▸ fillPass_inv mesh h ε hwf newh hinv

theorem fillInit_inv (mesh : Mesh) (h : List ℚ) (ε : ℚ)
    (hsent : ∀ i < h.length, hget h i < sentinel) :
    FillInv mesh h ε (fillInit mesh h) := by
  have hval : ∀ i < h.length,
      hget (fillInit mesh h) i = if isnearedge mesh i then hget h i else sentinel :=
    fun i hi => getD_map_range _ h.length i 0 hi
  refine ⟨by simp [fillInit], ?_, ?_, ?_⟩
  · intro i hi
    rw [hval i hi]
    by_cases hne : isnearedge mesh i
    · rw [if_pos hne]
    · rw [if_neg hne]; exact le_of_lt (hsent i hi)
  · intro i hi hne
    rw [hval i hi, if_pos hne]
  · intro i hi hne heq
    rw [hval i hi, if_neg (by rw [hne]; exact Bool.false_ne_true)] at heq
    exact absurd (heq ▸ hsent i hi) (lt_irrefl _)

/-- C10: for every height field entirely below the 999999 sentinel and every
epsilon > 0, a terminating run of `fillSinks` never lowers a vertex below
its true height (`out[i] ≥ h[i]` everywhere), and every near-edge vertex
keeps exactly its true height. -/
theorem fillSinks_monotone (mesh : Mesh) (h : List ℚ) (ε : ℚ) (fuel : Nat) (out : List ℚ)
    (hwf : MeshWF mesh h.length) (hsent : ∀ i < h.length, hget h i < sentinel)
    (hε : 0 < ε) (hrun : fillSinks mesh h ε fuel = some out) :
    (∀ i < h.length, hget h i ≤ hget out i) ∧
    (∀ i < h.length, isnearedge mesh i = true → hget out i = hget h i) := by
  have hinv := fillLoop_inv mesh h ε hwf fuel (fillInit mesh h) out
    (fillInit_inv mesh h ε hsent) hrun
  exact ⟨hinv.2.1, hinv.2.2.1⟩

/-- Concrete terminating run of `fillSinks` on the star mesh `meshS`: the
interior centre snaps back to its true height 1. -/
theorem run_fillSinks_meshS : fillSinks meshS hS (1/1000) 2 = some [1, 0, 0, 0] := by
  have h0 : fillInit meshS hS = [sentinel, 0, 0, 0] := by
    norm_num [fillInit, range_four, hget, meshS, hS, isnearedge, vx, sentinel]
  have h1 : fillPass meshS hS (1/1000) [sentinel, 0, 0, 0] = ([1, 0, 0, 0], true) := by
    norm_num [fillPass, range_four, fillCell, fillScan, hget, neighbours, meshS, hS, sentinel]
  have h2 : fillPass meshS hS (1/1000) [1, 0, 0, 0] = ([1, 0, 0, 0], false) := by
    norm_num [fillPass, range_four, fillCell, fillScan, hget, neighbours, meshS, hS, sentinel]
  unfold fillSinks
  rw [h0, show (2 : ℕ) = 1 + 1 from rfl, fillLoop_succ, h1]
  show fillLoop meshS hS (1/1000) 1 [1, 0, 0, 0] = some [1, 0, 0, 0]
  rw [show (1 : ℕ) = 0 + 1 from rfl, fillLoop_succ, h2]
  rfl

/-- Witness for `fillSinks_monotone` on the concrete run `run_fillSinks_meshS`:
the centre keeps `out[0] ≥ h[0]` and the near-edge leaf 1 keeps its height. -/
theorem fillSinks_monotone_witness :
    hget hS 0 ≤ hget [1, 0, 0, 0] 0 ∧ hget [1, 0, 0, 0] 1 = hget hS 1 := by
  have T := fillSinks_monotone meshS hS (1/1000) 2 [1, 0, 0, 0]
    (by with_unfolding_all decide) (by with_unfolding_all decide) (by norm_num)
    run_fillSinks_meshS
  exact ⟨T.1 0 (by with_unfolding_all decide), T.2 1 (by with_unfolding_all decide)
    (by with_unfolding_all decide)⟩

/-- C1 (amended): after a terminating `fillSinks` run, every interior
vertex that is not near-edge and whose filled height equals its true height
has a neighbour with a strictly lower filled height.  (Near-edge vertices —
even interior ones — and vertices left strictly above their true height can
remain local minima, per the counterexample.) -/
theorem fillSinks_snapped_no_local_min (mesh : Mesh) (h : List ℚ) (ε : ℚ) (fuel : Nat)
    (out : List ℚ) (hwf : MeshWF mesh h.length)
    (hsent : ∀ i < h.length, hget h i < sentinel) (hε : 0 < ε)
    (hrun : fillSinks mesh h ε fuel = some out) :
    ∀ i < h.length, isnearedge mesh i = false → hget out i = hget h i →
      ∃ j ∈ neighbours mesh i, hget out j < hget out i := by
  have hinv := fillLoop_inv mesh h ε hwf fuel (fillInit mesh h) out
    (fillInit_inv mesh h ε hsent) hrun
  intro i hi hne heq
  obtain ⟨j, hj, hle⟩ := hinv.2.2.2 i hi hne heq
  refine ⟨j, hj, ?_⟩
  rw [heq]
  linarith

/-- Witness for `fillSinks_snapped_no_local_min` on the concrete run
`run_fillSinks_meshS`: the snapped interior centre has a strictly lower
neighbour in the filled surface. -/
theorem fillSinks_snapped_no_local_min_witness :
    isnearedge meshS 0 = false ∧ hget [1, 0, 0, 0] 0 = hget hS 0 ∧
    ∃ j ∈ neighbours meshS 0, hget [1, 0, 0, 0] j < hget [1, 0, 0, 0] 0 := by
  refine ⟨by with_unfolding_all decide, by with_unfolding_all decide, ?_⟩
  exact fillSinks_snapped_no_local_min meshS hS (1/1000) 2 [1, 0, 0, 0]
    (by with_unfolding_all decide) (by with_unfolding_all decide) (by norm_num)
    run_fillSinks_meshS 0 (by with_unfolding_all decide) (by with_unfolding_all decide)
    (by with_unfolding_all decide)

/-! ## getFlux conservation (C3) -/

theorem downScan_spec (h : List ℚ) :
    ∀ (nbs : List Nat) (best : Int) (besth : ℚ),
      downScan h nbs best besth = best ∨
      ∃ t ∈ nbs, downScan h nbs best besth = Int.ofNat t ∧ hget h t < besth := by
  intro nbs
  induction nbs with
  | nil => intro best besth; exact Or.inl rfl
  | cons j rest ih =>
    intro best besth
    by_cases hj : hget h j < besth
    · simp only [downScan, if_pos hj]
      rcases ih (Int.ofNat j) (hget h j) with h1 | ⟨t, ht, h2, h3⟩
      · exact Or.inr ⟨j, List.mem_cons_self _ _, h1, hj⟩
      · exact Or.inr ⟨t, List.mem_cons_of_mem _ ht, h2, lt_trans h3 hj⟩
    · simp only [downScan, if_neg hj]
      rcases ih best besth with h1 | ⟨t, ht, h2, h3⟩
      · exact Or.inl h1
      · exact Or.inr ⟨t, List.mem_cons_of_mem _ ht, h2, h3⟩

theorem dhTarget_spec (mesh : Mesh) (h : List ℚ) (j t : Nat)
    (ht : dhTarget mesh h j = some t) :
    t ∈ neighbours mesh j ∧ hget h t < hget h j := by
  unfold dhTarget downfrom at ht
  by_cases he : isedge mesh j
  · rw [if_pos he] at ht
    have hnone : (match (-2 : Int) with
        | Int.ofNat t => some t
        | _ => (none : Option Nat)) = none := rfl
    rw [hnone] at ht
    exact Option.noConfusion ht
  · rw [if_neg he] at ht
    rcases downScan_spec h (neighbours mesh j) (-1) (hget h j) with h1 | ⟨t', ht', h2, h3⟩
    · rw [h1] at ht
      have hnone : (match (-1 : Int) with
          | Int.ofNat t => some t
          | _ => (none : Option Nat)) = none := rfl
      rw [hnone] at ht
      exact Option.noConfusion ht
    · rw [h2] at ht
      have hsome : (match (Int.ofNat t') with
          | Int.ofNat t => some t
          | _ => (none : Option Nat)) = some t' := rfl
      rw [hsome] at ht
      rw [← Option.some.inj ht]
      exact ⟨ht', h3⟩

theorem insDesc_perm (h : List ℚ) (j : Nat) :
    ∀ l : List Nat, List.Perm (insDesc h j l) (j :: l) := by
  intro l
  induction l with
  | nil => exact List.Perm.refl _
  | cons k ks ih =>
    by_cases hc : hget h j ≤ hget h k
    · simp only [insDesc, if_pos hc]
      exact (List.Perm.cons k ih).trans (List.Perm.swap j k ks)
    · simp only [insDesc, if_neg hc]
      exact List.Perm.refl _

theorem sortDesc_perm (h : List ℚ) :
    ∀ l : List Nat, List.Perm (sortDesc h l) l := by
  intro l
  induction l with
  | nil => exact List.Perm.refl _
  | cons j rest ih =>
    exact (insDesc_perm h j (sortDesc h rest)).trans (List.Perm.cons j ih)

theorem insDesc_sorted (h : List ℚ) (j : Nat) :
    ∀ l : List Nat, List.Pairwise (fun a b => hget h b ≤ hget h a) l →
      List.Pairwise (fun a b => hget h b ≤ hget h a) (insDesc h j l) := by
  intro l
  induction l with
  | nil => intro _; simp [insDesc]
  | cons k ks ih =>
    intro hp
    rcases List.pairwise_cons.mp hp with ⟨hk, hks⟩
    by_cases hc : hget h j ≤ hget h k
    · simp only [insDesc, if_pos hc]
      refine List.pairwise_cons.mpr ⟨?_, ih hks⟩
      intro m hm
      rcases List.mem_cons.mp ((insDesc_perm h j ks).mem_iff.mp hm) with hm1 | hm2
      · rw [hm1]; exact hc
      · exact hk m hm2
    · simp only [insDesc, if_neg hc]
      push_neg at hc
      refine List.pairwise_cons.mpr ⟨?_, hp⟩
      intro m hm
      rcases List.mem_cons.mp hm with hm1 | hm2
      · rw [hm1]; exact le_of_lt hc
      · exact le_trans (hk m hm2) (le_of_lt hc)

theorem sortDesc_sorted (h : List ℚ) :
    ∀ l : List Nat, List.Pairwise (fun a b => hget h b ≤ hget h a) (sortDesc h l) := by
  intro l
  induction l with
  | nil => simp [sortDesc]
  | cons j rest ih => exact insDesc_sorted h j _ ih

theorem fluxFold_length (mesh : Mesh) (h : List ℚ) :
    ∀ (l : List Nat) (flux : List ℚ),
      (l.foldl (fluxStep mesh h) flux).length = flux.length := by
  intro l
  induction l with
  | nil => intro flux; rfl
  | cons j rest ih =>
    intro flux
    have hstep : (j :: rest).foldl (fluxStep mesh h) flux =
        rest.foldl (fluxStep mesh h) (fluxStep mesh h flux j) := rfl
    rw [hstep, ih]
    cases htt : dhTarget mesh h j with
    | none => simp only [fluxStep, htt]
    | some t => simp only [fluxStep, htt, List.length_set]

theorem fluxFold_frozen (mesh : Mesh) (h : List ℚ) :
    ∀ (l : List Nat) (flux : List ℚ) (k : Nat),
      List.Pairwise (fun a b => hget h b ≤ hget h a) l →
      (∀ j ∈ l, ∀ t, dhTarget mesh h j = some t → t ∈ l ∧ hget h t < hget h j) →
      k ∉ l →
      hget (l.foldl (fluxStep mesh h) flux) k = hget flux k := by
  intro l
  induction l with
  | nil => intro flux k _ _ _; rfl
  | cons j rest ih =>
    intro flux k hp hcl hk
    have hkr : k ∉ rest := fun hh => hk (List.mem_cons_of_mem _ hh)
    have hcl' : ∀ j' ∈ rest, ∀ t, dhTarget mesh h j' = some t →
        t ∈ rest ∧ hget h t < hget h j' := by
      intro j' hj' t htt
      obtain ⟨h1, h2⟩ := hcl j' (List.mem_cons_of_mem _ hj') t htt
      rcases List.mem_cons.mp h1 with rfl | hmem
      · have hj'le : hget h j' ≤ hget h t := (List.pairwise_cons.mp hp).1 j' hj'
        exact absurd (lt_of_lt_of_le h2 hj'le) (lt_irrefl _)
      · exact ⟨hmem, h2⟩
    have hstep : (j :: rest).foldl (fluxStep mesh h) flux =
        rest.foldl (fluxStep mesh h) (fluxStep mesh h flux j) := rfl
    rw [hstep, ih (fluxStep mesh h flux j) k (List.pairwise_cons.mp hp).2 hcl' hkr]
    cases htt : dhTarget mesh h j with
    | none => simp only [fluxStep, htt]
    | some t =>
      obtain ⟨h1, _⟩ := hcl j (List.mem_cons_self _ _) t htt
      have hkt : k ≠ t := fun hh => hk (hh ▸ h1)
      simp only [fluxStep, htt]
      exact hget_set_ne flux t k _ hkt

theorem map_sum_set (flux : List ℚ) (t : Nat) (v : ℚ) :
    ∀ (l : List Nat), l.Nodup → t ∈ l → t < flux.length →
      (l.map (hget (flux.set t v))).sum = (l.map (hget flux)).sum - hget flux t + v := by
  intro l
  induction l with
  | nil => intro _ h2 _; exact absurd h2 (List.not_mem_nil _)
  | cons a as ih =>
    intro hnd hmem hlen
    rcases List.mem_cons.mp hmem with rfl | hmem'
    · have hnotin : t ∉ as := (List.nodup_cons.mp hnd).1
      simp only [List.map_cons, List.sum_cons]
      rw [hget_set_self flux t v hlen]
      have hcongr : as.map (hget (flux.set t v)) = as.map (hget flux) := by
        apply List.map_congr_left
        intro m hm
        exact hget_set_ne flux t m v (fun hh => hnotin (hh ▸ hm))
      rw [hcongr]
      ring
    · have ha : a ≠ t := fun hh => (List.nodup_cons.mp hnd).1 (hh ▸ hmem')
      simp only [List.map_cons, List.sum_cons]
      rw [hget_set_ne flux t a v ha, ih (List.nodup_cons.mp hnd).2 hmem' hlen]
      ring

theorem fluxFold_conserve (mesh : Mesh) (h : List ℚ) :
    ∀ (l : List Nat) (flux : List ℚ),
      l.Nodup →
      List.Pairwise (fun a b => hget h b ≤ hget h a) l →
      (∀ j ∈ l, ∀ t, dhTarget mesh h j = some t →
        t ∈ l ∧ t < flux.length ∧ hget h t < hget h j) →
      ((l.filter (fun j => (dhTarget mesh h j).isNone)).map
          (hget (l.foldl (fluxStep mesh h) flux))).sum = (l.map (hget flux)).sum := by
  intro l
  induction l with
  | nil => intro flux _ _ _; rfl
  | cons j rest ih =>
    intro flux hnd hp hcl
    have hndr := (List.nodup_cons.mp hnd).2
    have hjnotr := (List.nodup_cons.mp hnd).1
    have hpr := (List.pairwise_cons.mp hp).2
    have hclr : ∀ (fl2 : List ℚ), fl2.length = flux.length →
        ∀ j' ∈ rest, ∀ t, dhTarget mesh h j' = some t →
        t ∈ rest ∧ t < fl2.length ∧ hget h t < hget h j' := by
      intro fl2 hl2 j' hj' t htt
      obtain ⟨h1, h2, h3⟩ := hcl j' (List.mem_cons_of_mem _ hj') t htt
      rcases List.mem_cons.mp h1 with rfl | hmem
      · have hj'le : hget h j' ≤ hget h t := (List.pairwise_cons.mp hp).1 j' hj'
        exact absurd (lt_of_lt_of_le h3 hj'le) (lt_irrefl _)
      · exact ⟨hmem, by rw [hl2]; exact h2, h3⟩
    have hclfr : ∀ j' ∈ rest, ∀ t, dhTarget mesh h j' = some t →
        t ∈ rest ∧ hget h t < hget h j' := by
      intro j' hj' t htt
      obtain ⟨h1, _, h3⟩ := hclr flux rfl j' hj' t htt
      exact ⟨h1, h3⟩
    cases htt : dhTarget mesh h j with
    | none =>
      have hstep : (j :: rest).foldl (fluxStep mesh h) flux =
          rest.foldl (fluxStep mesh h) flux := by
        show rest.foldl (fluxStep mesh h) (fluxStep mesh h flux j) = _
        rw [show fluxStep mesh h flux j = flux by simp only [fluxStep, htt]]
      have hfil : (j :: rest).filter (fun j' => (dhTarget mesh h j').isNone) =
          j :: rest.filter (fun j' => (dhTarget mesh h j').isNone) := by
        simp [List.filter_cons, htt]
      rw [hstep, hfil]
      simp only [List.map_cons, List.sum_cons]
      rw [ih flux hndr hpr (hclr flux rfl)]
      rw [fluxFold_frozen mesh h rest flux j hpr hclfr hjnotr]
    | some t =>
      obtain ⟨ht1, ht2, ht3⟩ := hcl j (List.mem_cons_self _ _) t htt
      have htj : t ≠ j := fun hh => absurd (hh ▸ ht3) (lt_irrefl _)
      have htr : t ∈ rest := by
        rcases List.mem_cons.mp ht1 with hh | hh
        · exact absurd hh htj
        · exact hh
      have hstep : (j :: rest).foldl (fluxStep mesh h) flux =
          rest.foldl (fluxStep mesh h) (flux.set t (hget flux t + hget flux j)) := by
        show rest.foldl (fluxStep mesh h) (fluxStep mesh h flux j) = _
        rw [show fluxStep mesh h flux j = flux.set t (hget flux t + hget flux j) by
          simp only [fluxStep, htt]]
      have hfil : (j :: rest).filter (fun j' => (dhTarget mesh h j').isNone) =
          rest.filter (fun j' => (dhTarget mesh h j').isNone) := by
        simp [List.filter_cons, htt]
      rw [hstep, hfil]
      rw [ih (flux.set t (hget flux t + hget flux j)) hndr hpr
        (hclr _ (by simp) )]
      rw [map_sum_set flux t _ rest hndr htr ht2]
      simp only [List.map_cons, List.sum_cons]
      ring

theorem hget_of_length_le (l : List ℚ) (i : Nat) (hi : l.length ≤ i) : hget l i = 0 := by
  unfold hget
  rw [List.getD_eq_getElem?_getD, List.getElem?_eq_none hi]
  rfl

theorem fluxFold_lb (mesh : Mesh) (h : List ℚ) (q : ℚ) (hq : 0 ≤ q) :
    ∀ (l : List Nat) (flux : List ℚ),
      (∀ k < flux.length, q ≤ hget flux k) →
      ∀ k < flux.length, q ≤ hget (l.foldl (fluxStep mesh h) flux) k := by
  intro l
  induction l with
  | nil => intro flux hinv k hk; exact hinv k hk
  | cons j rest ih =>
    intro flux hinv k hk
    have hstep : (j :: rest).foldl (fluxStep mesh h) flux =
        rest.foldl (fluxStep mesh h) (fluxStep mesh h flux j) := rfl
    rw [hstep]
    have hlen : (fluxStep mesh h flux j).length = flux.length := by
      cases htt : dhTarget mesh h j with
      | none => simp only [fluxStep, htt]
      | some t => simp only [fluxStep, htt, List.length_set]
    have hinv2 : ∀ m < (fluxStep mesh h flux j).length, q ≤ hget (fluxStep mesh h flux j) m := by
      intro m hm
      rw [hlen] at hm
      cases htt : dhTarget mesh h j with
      | none => simp only [fluxStep, htt]; exact hinv m hm
      | some t =>
        simp only [fluxStep, htt]
        by_cases hmt : m = t
        · rw [hmt, hget_set_self flux t _ (by rw [← hmt]; exact hm)]
          have hj0 : 0 ≤ hget flux j := by
            by_cases hjl : j < flux.length
            · exact le_trans hq (hinv j hjl)
            · rw [hget_of_length_le flux j (by omega)]
          have := hinv t (by rw [← hmt]; exact hm)
          linarith
        · rw [hget_set_ne flux t m _ hmt]
          exact hinv m hm
    have := ih (fluxStep mesh h flux j) hinv2 k (by rw [hlen]; exact hk)
    exact this

/-- C3 (amended): every vertex's flux is at least `1/vertexCount`, and the
flux accumulated at the terminal vertices — those with no downhill target,
i.e. boundary vertices and local minima — sums to exactly 1.  (The sum over
all vertices is larger: each transfer adds a vertex's flux into its target
without removing it, per the counterexample.) -/
theorem getFlux_lb_and_terminal_sum (mesh : Mesh) (h : List ℚ)
    (hwf : MeshWF mesh h.length) (hn : 0 < h.length) :
    (∀ i < h.length, 1 / (h.length : ℚ) ≤ hget (getFlux mesh h) i) ∧
    (((List.range h.length).filter (fun j => (dhTarget mesh h j).isNone)).map
        (hget (getFlux mesh h))).sum = 1 := by
  have hperm : List.Perm (sortDesc h (List.range h.length)) (List.range h.length) :=
    sortDesc_perm h _
  have hnd : (sortDesc h (List.range h.length)).Nodup :=
    hperm.nodup_iff.mpr (List.nodup_range h.length)
  have hsorted := sortDesc_sorted h (List.range h.length)
  have hinitlen : (List.replicate h.length (1 / (h.length : ℚ))).length = h.length := by
    simp
  have hinitval : ∀ k < h.length,
      hget (List.replicate h.length (1 / (h.length : ℚ))) k = 1 / (h.length : ℚ) := by
    intro k hk
    unfold hget
    rw [getD_replicate, if_pos hk]
  have hq0 : (0 : ℚ) ≤ 1 / (h.length : ℚ) := by positivity
  constructor
  · intro i hi
    unfold getFlux
    have := fluxFold_lb mesh h (1 / (h.length : ℚ)) hq0 (sortDesc h (List.range h.length))
      (List.replicate h.length (1 / (h.length : ℚ)))
      (fun k hk => le_of_eq (hinitval k (by rw [← hinitlen]; exact hk)).symm)
      i (by rw [hinitlen]; exact hi)
    exact this
  · have hcl : ∀ j ∈ sortDesc h (List.range h.length), ∀ t, dhTarget mesh h j = some t →
        t ∈ sortDesc h (List.range h.length) ∧
        t < (List.replicate h.length (1 / (h.length : ℚ))).length ∧
        hget h t < hget h j := by
      intro j hj t htt
      have hjn : j < h.length := List.mem_range.mp (hperm.mem_iff.mp hj)
      obtain ⟨hmem, hlt⟩ := dhTarget_spec mesh h j t htt
      have htn : t < h.length := (hwf.2 j hjn t hmem).1
      refine ⟨hperm.mem_iff.mpr (List.mem_range.mpr htn), by rw [hinitlen]; exact htn, hlt⟩
    have hcons := fluxFold_conserve mesh h (sortDesc h (List.range h.length))
      (List.replicate h.length (1 / (h.length : ℚ))) hnd hsorted hcl
    have hgoalperm : List.Perm
        ((sortDesc h (List.range h.length)).filter (fun j => (dhTarget mesh h j).isNone))
        ((List.range h.length).filter (fun j => (dhTarget mesh h j).isNone)) :=
      hperm.filter _
    have hmapperm : List.Perm
        (((sortDesc h (List.range h.length)).filter
            (fun j => (dhTarget mesh h j).isNone)).map (hget (getFlux mesh h)))
        (((List.range h.length).filter
            (fun j => (dhTarget mesh h j).isNone)).map (hget (getFlux mesh h))) :=
      hgoalperm.map _
    rw [← hmapperm.sum_eq]
    have hrhs : ((sortDesc h (List.range h.length)).map
        (hget (List.replicate h.length (1 / (h.length : ℚ))))).sum = 1 := by
      have hval : ∀ j ∈ sortDesc h (List.range h.length),
          hget (List.replicate h.length (1 / (h.length : ℚ))) j = 1 / (h.length : ℚ) := by
        intro j hj
        exact hinitval j (List.mem_range.mp (hperm.mem_iff.mp hj))
      rw [List.map_congr_left hval]
      rw [List.map_const']
      rw [List.sum_replicate]
      rw [hperm.length_eq, List.length_range]
      rw [nsmul_eq_mul]
      have hne : (h.length : ℚ) ≠ 0 := by
        exact_mod_cast Nat.pos_iff_ne_zero.mp hn
      field_simp
    unfold getFlux
    rw [hcons]
    exact hrhs

/-- Witness for `getFlux_lb_and_terminal_sum` on `meshS`/`hS3`: the flux at
vertex 2 is at least 1/4, and the terminal flux sums to 1. -/
theorem getFlux_lb_and_terminal_sum_witness :
    1 / (hS3.length : ℚ) ≤ hget (getFlux meshS hS3) 2 ∧
    (((List.range hS3.length).filter (fun j => (dhTarget meshS hS3 j).isNone)).map
        (hget (getFlux meshS hS3))).sum = 1 := by
  have T := getFlux_lb_and_terminal_sum meshS hS3 (by with_unfolding_all decide)
    (by with_unfolding_all decide)
  exact ⟨T.1 2 (by with_unfolding_all decide), T.2⟩

/-! ## getRivers emission (C8) -/

/-- C8 (amended): `getRivers` emits a segment for vertex `i` exactly when
`i` is **not near-edge** and its flux exceeds the threshold, its height is
above sea level, and it has a valid downhill target; and whenever the
downhill target is below sea level the emitted segment is truncated to the
midpoint of the two positions. -/
theorem riverSegment_spec (mesh : Mesh) (h : List ℚ) (limit : ℚ) :
    riverLinks mesh h limit = (List.range h.length).filterMap
      (riverSegment mesh h (getFlux mesh h) (riverLimit h limit)) ∧
    (∀ i,
      riverSegment mesh h (getFlux mesh h) (riverLimit h limit) i ≠ none ↔
        isnearedge mesh i = false ∧
        hget (getFlux mesh h) i > riverLimit h limit ∧ hget h i > 0 ∧
        ∃ t, dhTarget mesh h i = some t) ∧
    (∀ i t, dhTarget mesh h i = some t → isnearedge mesh i = false →
      hget (getFlux mesh h) i > riverLimit h limit → hget h i > 0 → hget h t < 0 →
      riverSegment mesh h (getFlux mesh h) (riverLimit h limit) i =
        some (vx mesh i,
          (((vx mesh i).1 + (vx mesh t).1) / 2, ((vx mesh i).2 + (vx mesh t).2) / 2))) := by
  refine ⟨?_, ?_, ?_⟩
  · unfold riverLinks
    show List.filterMap (riverSegment mesh h (getFlux mesh h) (riverLimit h limit))
        (List.range (downhill mesh h).length) = _
    rw [show (downhill mesh h).length = h.length from by
      unfold downhill; rw [List.length_map, List.length_range]]
  · intro i
    unfold riverSegment
    by_cases hne : isnearedge mesh i = true
    · rw [if_pos hne]
      simp [hne]
    · rw [if_neg hne]
      have hne' : isnearedge mesh i = false := by
        cases hb : isnearedge mesh i
        · rfl
        · exact absurd hb hne
      cases htt : dhTarget mesh h i with
      | none => simp [hne', htt]
      | some t =>
        simp only []
        by_cases hc : hget (getFlux mesh h) i > riverLimit h limit ∧ hget h i > 0
        · rw [if_pos hc]
          constructor
          · intro _
            exact ⟨hne', hc.1, hc.2, t, rfl⟩
          · intro _
            by_cases hsea : hget h t > 0
            · rw [if_pos hsea]; exact Option.some_ne_none _
            · rw [if_neg hsea]; exact Option.some_ne_none _
        · rw [if_neg hc]
          constructor
          · intro hfalse; exact absurd rfl hfalse
          · rintro ⟨_, h1, h2, _⟩; exact absurd ⟨h1, h2⟩ hc
  · intro i t htt hne hflux hsea hlow
    unfold riverSegment
    rw [if_neg (by rw [hne]; exact Bool.false_ne_true), htt]
    simp only []
    rw [if_pos ⟨hflux, hsea⟩,
      if_neg (by exact not_lt_of_gt (lt_of_lt_of_le hlow (by norm_num)))]

/-- Witness for `riverSegment_spec`: on `meshS`/`hS3` the centre emits a
segment, and on `meshS`/`hS8` (downhill target below sea level) its segment
is truncated to the midpoint. -/
theorem riverSegment_spec_witness :
    riverSegment meshS hS3 (getFlux meshS hS3) (riverLimit hS3 0) 0 ≠ none ∧
    riverSegment meshS hS8 (getFlux meshS hS8) (riverLimit hS8 0) 0 =
      some (vx meshS 0, (((vx meshS 0).1 + (vx meshS 1).1) / 2,
        ((vx meshS 0).2 + (vx meshS 1).2) / 2)) := by
  constructor
  · exact ((riverSegment_spec meshS hS3 0).2.1 0).mpr
      ⟨by with_unfolding_all decide, by with_unfolding_all decide,
       by with_unfolding_all decide, 2, by with_unfolding_all decide⟩
  · exact (riverSegment_spec meshS hS8 0).2.2 0 1 (by with_unfolding_all decide)
      (by with_unfolding_all decide) (by with_unfolding_all decide)
      (by with_unfolding_all decide) (by with_unfolding_all decide)

/-! ## erode (C5) -/

theorem foldl_max_mem : ∀ (xs : List ℚ) (x : ℚ),
    xs.foldl max x = x ∨ xs.foldl max x ∈ xs := by
  intro xs
  induction xs with
  | nil => intro x; exact Or.inl rfl
  | cons y ys ih =>
    intro x
    rcases ih (max x y) with h1 | h2
    · rcases max_choice x y with hm | hm
      · exact Or.inl (by rw [List.foldl_cons, h1, hm])
      · exact Or.inr (by rw [List.foldl_cons, h1, hm]; exact List.mem_cons_self _ _)
    · exact Or.inr (List.mem_cons_of_mem _ (by rw [List.foldl_cons]; exact h2))

theorem d3max_mem (l : List ℚ) (hl : l ≠ []) : d3max l ∈ l := by
  cases l with
  | nil => exact absurd rfl hl
  | cons x xs =>
    rcases foldl_max_mem xs x with h1 | h2
    · rw [show d3max (x :: xs) = xs.foldl max x from rfl, h1]
      exact List.mem_cons_self _ _
    · exact List.mem_cons_of_mem _ h2

theorem hget_eq_getElem (l : List ℚ) (i : Nat) (hi : i < l.length) : hget l i = l[i] := by
  unfold hget
  exact List.getD_eq_getElem l 0 hi

/-- The flux of every vertex is nonnegative (used for the erosion-rate
sign). -/
theorem getFlux_nonneg (mesh : Mesh) (h : List ℚ) :
    ∀ i < h.length, 0 ≤ hget (getFlux mesh h) i := by
  intro i hi
  unfold getFlux
  have hinitlen : (List.replicate h.length (1 / (h.length : ℚ))).length = h.length := by simp
  refine fluxFold_lb mesh h 0 (le_refl 0) _ _ ?_ i (by rw [hinitlen]; exact hi)
  intro k hk
  rw [hinitlen] at hk
  unfold hget
  rw [getD_replicate, if_pos hk]
  positivity

/-- The erosion rate of every vertex is nonnegative, given a sign-correct
square-root model. -/
theorem getSlope_val (sq : ℚ → ℚ) (mesh : Mesh) (h : List ℚ) (i : Nat)
    (hi : i < h.length) :
    hget (getSlope sq mesh h) i =
      sq ((trislope mesh h i).1 * (trislope mesh h i).1 +
        (trislope mesh h i).2 * (trislope mesh h i).2) :=
  getD_map_range _ h.length i 0 hi

/-- The value of `erosionRate` at an in-range vertex, as an equation. -/
theorem erosionRate_val (sq : ℚ → ℚ) (mesh : Mesh) (h : List ℚ) (i : Nat)
    (hi : i < h.length) :
    hget (erosionRate sq mesh h) i =
      (if 1000 * (sq (hget (getFlux mesh h) i) * hget (getSlope sq mesh h) i) +
          hget (getSlope sq mesh h) i * hget (getSlope sq mesh h) i > 200 then 200
       else 1000 * (sq (hget (getFlux mesh h) i) * hget (getSlope sq mesh h) i) +
          hget (getSlope sq mesh h) i * hget (getSlope sq mesh h) i) :=
  getD_map_range _ h.length i 0 hi

/-- The value of `erode` at an in-range vertex, as an equation. -/
theorem erode_val (sq : ℚ → ℚ) (mesh : Mesh) (h : List ℚ) (amount : ℚ) (i : Nat)
    (hi : i < h.length) :
    hget (erode sq mesh h amount) i =
      hget h i - amount *
        (hget (erosionRate sq mesh h) i / d3max (erosionRate sq mesh h)) :=
  getD_map_range _ h.length i 0 hi

theorem erosionRate_nonneg (sq : ℚ → ℚ) (mesh : Mesh) (h : List ℚ)
    (hsq : ∀ x, 0 ≤ x → 0 ≤ sq x) :
    ∀ i < h.length, 0 ≤ hget (erosionRate sq mesh h) i := by
  intro i hi
  rw [erosionRate_val sq mesh h i hi]
  have hslope : 0 ≤ hget (getSlope sq mesh h) i := by
    rw [getSlope_val sq mesh h i hi]
    exact hsq _ (add_nonneg (mul_self_nonneg _) (mul_self_nonneg _))
  have hflux : 0 ≤ sq (hget (getFlux mesh h) i) := hsq _ (getFlux_nonneg mesh h i hi)
  by_cases hcap : 1000 * (sq (hget (getFlux mesh h) i) * hget (getSlope sq mesh h) i) +
      hget (getSlope sq mesh h) i * hget (getSlope sq mesh h) i > 200
  · rw [if_pos hcap]; norm_num
  · rw [if_neg hcap]
    exact add_nonneg (mul_nonneg (by norm_num) (mul_nonneg hflux hslope))
      (mul_self_nonneg _)

/-- C5 (amended): for `amount ≥ 0` and a positive maximal erosion rate,
`erode` decreases every vertex by the nonnegative quantity
`amount * (erosionRate[i] / max erosionRate)`, every vertex attaining the
maximal rate decreases by exactly `amount`, and at least one vertex attains
it.  (Uniqueness fails under rate ties, and a flat field — maximal rate 0 —
makes the scaling division degenerate, per the counterexample.) -/
theorem erode_spec (sq : ℚ → ℚ) (mesh : Mesh) (h : List ℚ) (amount : ℚ)
    (hsq : ∀ x, 0 ≤ x → 0 ≤ sq x) (hn : 0 < h.length) (hamt : 0 ≤ amount)
    (hmax : 0 < d3max (erosionRate sq mesh h)) :
    (∀ i < h.length,
      hget h i - hget (erode sq mesh h amount) i =
        amount * (hget (erosionRate sq mesh h) i / d3max (erosionRate sq mesh h)) ∧
      0 ≤ hget h i - hget (erode sq mesh h amount) i) ∧
    (∀ i < h.length, hget (erosionRate sq mesh h) i = d3max (erosionRate sq mesh h) →
      hget h i - hget (erode sq mesh h amount) i = amount) ∧
    ∃ i, i < h.length ∧
      hget (erosionRate sq mesh h) i = d3max (erosionRate sq mesh h) := by
  have hlen : (erosionRate sq mesh h).length = h.length := by
    unfold erosionRate
    rw [List.length_map, List.length_range]
  have hero : ∀ i < h.length, hget (erode sq mesh h amount) i =
      hget h i - amount *
        (hget (erosionRate sq mesh h) i / d3max (erosionRate sq mesh h)) := by
    intro i hi
    exact erode_val sq mesh h amount i hi
  refine ⟨?_, ?_, ?_⟩
  · intro i hi
    constructor
    · rw [hero i hi]; ring
    · rw [hero i hi]
      have h1 : 0 ≤ hget (erosionRate sq mesh h) i := erosionRate_nonneg sq mesh h hsq i hi
      have h2 : 0 ≤ hget (erosionRate sq mesh h) i / d3max (erosionRate sq mesh h) :=
        div_nonneg h1 (le_of_lt hmax)
      nlinarith
  · intro i hi heq
    rw [hero i hi, heq, div_self (ne_of_gt hmax)]
    ring
  · have hne : erosionRate sq mesh h ≠ [] := by
      intro hh
      rw [hh] at hlen
      simp only [List.length_nil] at hlen
      omega
    obtain ⟨k, hk, hkeq⟩ := List.getElem_of_mem (d3max_mem (erosionRate sq mesh h) hne)
    refine ⟨k, by rw [← hlen]; exact hk, ?_⟩
    rw [hget_eq_getElem _ k hk, hkeq]

/-- Witness for `erode_spec` on `meshS`/`hS5` with the identity square-root
model: the centre attains the maximal erosion rate (capped at 200) and is
eroded by exactly the requested amount 1. -/
theorem erode_spec_witness :
    hget hS5 0 - hget (erode sqId meshS hS5 1) 0 = 1 := by
  have T := erode_spec sqId meshS hS5 1 (fun x hx => hx)
    (by with_unfolding_all decide) (by norm_num) (by with_unfolding_all decide)
  exact T.2.1 0 (by with_unfolding_all decide) (by with_unfolding_all decide)

/-! ## getTerritories invariants (C4) -/

theorem dequeueMin_eq_none : ∀ (q : List QEntry), dequeueMin q = none → q = [] := by
  intro q
  cases q with
  | nil => intro _; rfl
  | cons a as =>
    intro h
    cases hm : dequeueMin as with
    | none =>
      rw [show dequeueMin (a :: as) = some (a, []) from by
        simp only [dequeueMin, hm]] at h
      exact Option.noConfusion h
    | some p =>
      obtain ⟨m, rest⟩ := p
      rw [show dequeueMin (a :: as) =
          (if a.score ≤ m.score then some (a, as) else some (m, a :: rest)) from by
        simp only [dequeueMin, hm]] at h
      by_cases hs : a.score ≤ m.score
      · rw [if_pos hs] at h; exact Option.noConfusion h
      · rw [if_neg hs] at h; exact Option.noConfusion h

theorem dequeueMin_perm :
    ∀ (q : List QEntry) (e : QEntry) (rest : List QEntry),
      dequeueMin q = some (e, rest) → List.Perm q (e :: rest) := by
  intro q
  induction q with
  | nil => intro e rest h; exact Option.noConfusion h
  | cons a as ih =>
    intro e rest h
    cases hm : dequeueMin as with
    | none =>
      rw [show dequeueMin (a :: as) = some (a, []) from by
        simp only [dequeueMin, hm]] at h
      have h2 := Option.some.inj h
      injection h2 with h3 h4
      rw [← h3, ← h4, dequeueMin_eq_none as hm]
    | some p =>
      obtain ⟨m, rest'⟩ := p
      rw [show dequeueMin (a :: as) =
          (if a.score ≤ m.score then some (a, as) else some (m, a :: rest')) from by
        simp only [dequeueMin, hm]] at h
      by_cases hs : a.score ≤ m.score
      · rw [if_pos hs] at h
        have h2 := Option.some.inj h
        injection h2 with h3 h4
        rw [← h3, ← h4]
      · rw [if_neg hs] at h
        have h2 := Option.some.inj h
        injection h2 with h3 h4
        rw [← h3, ← h4]
        exact ((ih m rest' hm).cons a).trans (List.Perm.swap m a rest')

theorem terrLoop_succ (sq : ℚ → ℚ) (mesh : Mesh) (h flux : List ℚ) (fuel : Nat)
    (queue : List QEntry) (terr : List (Option Nat)) :
    terrLoop sq mesh h flux (fuel + 1) queue terr =
      match dequeueMin queue with
      | none => some terr
      | some (u, rest) =>
        if (towner terr u.vx).isSome then terrLoop sq mesh h flux fuel rest terr
        else terrLoop sq mesh h flux fuel
          (rest ++ (neighbours mesh u.vx).filterMap (fun v =>
            if (towner (terr.set u.vx (some u.city)) v).isSome then none
            else some ⟨u.score + weight sq mesh h flux u.vx v, u.city, v⟩))
          (terr.set u.vx (some u.city)) := rfl

theorem terrLoop_mono (sq : ℚ → ℚ) (mesh : Mesh) (h flux : List ℚ) :
    ∀ (fuel : Nat) (q : List QEntry) (t out : List (Option Nat)),
      terrLoop sq mesh h flux fuel q t = some out →
      ∀ v c, towner t v = some c → towner out v = some c := by
  intro fuel
  induction fuel with
  | zero => intro q t out hrun; exact absurd hrun (by simp [terrLoop])
  | succ fuel ih =>
    intro q t out hrun v c hv
    rw [terrLoop_succ] at hrun
    cases hd : dequeueMin q with
    | none =>
      rw [hd] at hrun
      simp only [] at hrun
      rw [← Option.some.inj hrun]
      exact hv
    | some p =>
      obtain ⟨u, rest⟩ := p
      rw [hd] at hrun
      simp only [] at hrun
      by_cases ho : (towner t u.vx).isSome = true
      · rw [if_pos ho] at hrun
        exact ih rest t out hrun v c hv
      · rw [if_neg ho] at hrun
        refine ih _ _ out hrun v c ?_
        by_cases hvv : v = u.vx
        · rw [hvv] at hv
          rw [hv] at ho
          exact absurd rfl ho
        · unfold towner
          rw [getD_set_ne _ _ _ _ _ hvv]
          exact hv

theorem terrLoop_reach (sq : ℚ → ℚ) (mesh : Mesh) (h flux : List ℚ) (caps : List Nat) :
    ∀ (fuel : Nat) (q : List QEntry) (t out : List (Option Nat)),
      (∀ e ∈ q, Reach mesh caps e.vx) →
      (∀ v c, towner t v = some c → Reach mesh caps v) →
      terrLoop sq mesh h flux fuel q t = some out →
      ∀ v c, towner out v = some c → Reach mesh caps v := by
  intro fuel
  induction fuel with
  | zero => intro q t out _ _ hrun; exact absurd hrun (by simp [terrLoop])
  | succ fuel ih =>
    intro q t out hq ht hrun
    rw [terrLoop_succ] at hrun
    cases hd : dequeueMin q with
    | none =>
      rw [hd] at hrun
      simp only [] at hrun
      intro v c hv
      exact ht v c (by rw [Option.some.inj hrun]; exact hv)
    | some p =>
      obtain ⟨u, rest⟩ := p
      rw [hd] at hrun
      simp only [] at hrun
      have hqperm := dequeueMin_perm q u rest hd
      have hu : Reach mesh caps u.vx :=
        hq u (hqperm.mem_iff.mpr (List.mem_cons_self _ _))
      have hrest : ∀ e ∈ rest, Reach mesh caps e.vx :=
        fun e he => hq e (hqperm.mem_iff.mpr (List.mem_cons_of_mem _ he))
      by_cases ho : (towner t u.vx).isSome = true
      · rw [if_pos ho] at hrun
        exact ih rest t out hrest ht hrun
      · rw [if_neg ho] at hrun
        have ht2 : ∀ v c, towner (t.set u.vx (some u.city)) v = some c →
            Reach mesh caps v := by
          intro v c hv
          by_cases hvv : v = u.vx
          · rw [hvv]; exact hu
          · refine ht v c ?_
            unfold towner
            rw [← getD_set_ne t u.vx v (some u.city) none hvv]
            exact hv
        have hq2 : ∀ e ∈ rest ++ (neighbours mesh u.vx).filterMap (fun v =>
            if (towner (t.set u.vx (some u.city)) v).isSome then none
            else some ⟨u.score + weight sq mesh h flux u.vx v, u.city, v⟩),
            Reach mesh caps e.vx := by
          intro e he
          rcases List.mem_append.mp he with he1 | he2
          · exact hrest e he1
          · obtain ⟨v, hv, hfv⟩ := List.mem_filterMap.mp he2
            by_cases hown : (towner (t.set u.vx (some u.city)) v).isSome = true
            · rw [if_pos hown] at hfv
              exact Option.noConfusion hfv
            · rw [if_neg hown] at hfv
              have hevx : e.vx = v := by rw [← Option.some.inj hfv]
              rw [hevx]
              obtain ⟨cap, hcap, hpath⟩ := hu
              exact ⟨cap, hcap, Relation.ReflTransGen.tail hpath hv⟩
        exact ih _ _ out hq2 ht2 hrun

theorem getD_mem_of_lt {α : Type} (l : List α) (i : Nat) (d : α) (hi : i < l.length) :
    l.getD i d ∈ l := by
  rw [List.getD_eq_getElem l d hi]
  exact List.getElem_mem hi

theorem towner_replicate (n v : Nat) : towner (List.replicate n none) v = none := by
  unfold towner
  rw [getD_replicate]
  split <;> rfl

theorem terrSeed_succ (sq : ℚ → ℚ) (mesh : Mesh) (h flux : List ℚ) (cities : List Nat)
    (K n : Nat) :
    terrSeed sq mesh h flux cities (K + 1) n =
      ((terrSeed sq mesh h flux cities K n).1 ++
        (neighbours mesh (cities.getD K 0)).map
          (fun v => ⟨weight sq mesh h flux (cities.getD K 0) v, cities.getD K 0, v⟩),
       (terrSeed sq mesh h flux cities K n).2.set (cities.getD K 0)
         (some (cities.getD K 0))) := by
  unfold terrSeed
  rw [List.range_succ, List.foldl_append]
  rfl

theorem terrSeed_len (sq : ℚ → ℚ) (mesh : Mesh) (h flux : List ℚ) (cities : List Nat)
    (n : Nat) : ∀ K, (terrSeed sq mesh h flux cities K n).2.length = n := by
  intro K
  induction K with
  | zero => simp [terrSeed]
  | succ K ih => rw [terrSeed_succ, List.length_set]; exact ih

theorem terrSeed_self (sq : ℚ → ℚ) (mesh : Mesh) (h flux : List ℚ) (cities : List Nat)
    (n : Nat) :
    ∀ K, (∀ i < K, cities.getD i 0 < n) →
      ∀ i < K, towner (terrSeed sq mesh h flux cities K n).2 (cities.getD i 0) =
        some (cities.getD i 0) := by
  intro K
  induction K with
  | zero => intro _ i hi; omega
  | succ K ih =>
    intro hc i hi
    rw [terrSeed_succ]
    by_cases hic : cities.getD i 0 = cities.getD K 0
    · unfold towner
      rw [hic]
      rw [getD_set_self _ _ _ _ (by rw [terrSeed_len]; exact hc K (by omega))]
    · have hiK : i < K := by
        rcases Nat.lt_succ_iff_lt_or_eq.mp hi with hlt | heq
        · exact hlt
        · exact absurd (by rw [heq]) hic
      unfold towner
      rw [getD_set_ne _ _ _ _ _ hic]
      exact ih (fun m hm => hc m (by omega)) i hiK

theorem terrSeed_owner (sq : ℚ → ℚ) (mesh : Mesh) (h flux : List ℚ) (cities : List Nat)
    (n : Nat) :
    ∀ K, ∀ v c, towner (terrSeed sq mesh h flux cities K n).2 v = some c →
      ∃ i, i < K ∧ v = cities.getD i 0 := by
  intro K
  induction K with
  | zero =>
    intro v c hv
    rw [show (terrSeed sq mesh h flux cities 0 n).2 = List.replicate n none from rfl,
      towner_replicate] at hv
    exact Option.noConfusion hv
  | succ K ih =>
    intro v c hv
    rw [terrSeed_succ] at hv
    by_cases hvc : v = cities.getD K 0
    · exact ⟨K, Nat.lt_succ_self K, hvc⟩
    · unfold towner at hv
      rw [getD_set_ne _ _ _ _ _ hvc] at hv
      obtain ⟨i, hi, hveq⟩ := ih v c hv
      exact ⟨i, by omega, hveq⟩

theorem terrSeed_queue (sq : ℚ → ℚ) (mesh : Mesh) (h flux : List ℚ) (cities : List Nat)
    (n : Nat) :
    ∀ K, ∀ e ∈ (terrSeed sq mesh h flux cities K n).1,
      ∃ i, i < K ∧ e.city = cities.getD i 0 ∧ e.vx ∈ neighbours mesh e.city := by
  intro K
  induction K with
  | zero =>
    intro e he
    exact absurd he (List.not_mem_nil _)
  | succ K ih =>
    intro e he
    rw [terrSeed_succ] at he
    rcases List.mem_append.mp he with he1 | he2
    · obtain ⟨i, hi, h1, h2⟩ := ih e he1
      exact ⟨i, by omega, h1, h2⟩
    · obtain ⟨v, hv, hfe⟩ := List.mem_map.mp he2
      refine ⟨K, Nat.lt_succ_self K, ?_, ?_⟩
      · rw [← hfe]
      · rw [← hfe]
        exact hv

theorem getTerritories_eq (sq : ℚ → ℚ) (mesh : Mesh) (h : List ℚ) (cities : List Nat)
    (nterrs fuel : Nat) :
    getTerritories sq mesh h cities nterrs fuel =
      terrLoop sq mesh h (getFlux mesh h) fuel
        (terrSeed sq mesh h (getFlux mesh h) cities (min nterrs cities.length) h.length).1
        (terrSeed sq mesh h (getFlux mesh h) cities (min nterrs cities.length)
          h.length).2 := rfl

/-- C4: in every terminating run of `getTerritories`, the dequeue loop never
changes an existing assignment (a popped entry whose target is owned is
discarded), each of the first `K = min(nterrs, #cities)` capitals owns
itself in the result, and every assigned vertex is reachable from one of
those `K` capitals along mesh adjacency — so vertices unreachable from
every capital remain unassigned when the queue empties, without error. -/
theorem getTerritories_invariants (sq : ℚ → ℚ) (mesh : Mesh) (h : List ℚ)
    (cities : List Nat) (nterrs fuel : Nat) (out : List (Option Nat))
    (hc : ∀ c ∈ cities, c < h.length)
    (hrun : getTerritories sq mesh h cities nterrs fuel = some out) :
    (∀ (fuel2 : Nat) (q : List QEntry) (t t2 : List (Option Nat)),
      terrLoop sq mesh h (getFlux mesh h) fuel2 q t = some t2 →
      ∀ v c, towner t v = some c → towner t2 v = some c) ∧
    (∀ i < min nterrs cities.length,
      towner out (cities.getD i 0) = some (cities.getD i 0)) ∧
    (∀ v c, towner out v = some c →
      Reach mesh (cities.take (min nterrs cities.length)) v) := by
  rw [getTerritories_eq] at hrun
  have hKle : min nterrs cities.length ≤ cities.length := Nat.min_le_right _ _
  have hcap : ∀ i < min nterrs cities.length, cities.getD i 0 < h.length := by
    intro i hi
    exact hc _ (getD_mem_of_lt cities i 0 (by omega))
  have hcapmem : ∀ i < min nterrs cities.length,
      cities.getD i 0 ∈ cities.take (min nterrs cities.length) := by
    intro i hi
    have hil : i < cities.length := by omega
    rw [List.getD_eq_getElem cities 0 hil]
    have hlen : i < (cities.take (min nterrs cities.length)).length := by
      rw [List.length_take]
      omega
    rw [show cities[i] = (cities.take (min nterrs cities.length))[i] from
      (List.getElem_take cities).symm]
    exact List.getElem_mem hlen
  refine ⟨terrLoop_mono sq mesh h (getFlux mesh h), ?_, ?_⟩
  · intro i hi
    refine terrLoop_mono sq mesh h (getFlux mesh h) fuel _ _ out hrun _ _ ?_
    exact terrSeed_self sq mesh h (getFlux mesh h) cities h.length
      (min nterrs cities.length) hcap i hi
  · refine terrLoop_reach sq mesh h (getFlux mesh h) _ fuel _ _ out ?_ ?_ hrun
    · intro e he
      obtain ⟨i, hi, hcity, hvx⟩ :=
        terrSeed_queue sq mesh h (getFlux mesh h) cities h.length
          (min nterrs cities.length) e he
      refine ⟨e.city, by rw [hcity]; exact hcapmem i hi, ?_⟩
      exact Relation.ReflTransGen.single hvx
    · intro v c hv
      obtain ⟨i, hi, hveq⟩ :=
        terrSeed_owner sq mesh h (getFlux mesh h) cities h.length
          (min nterrs cities.length) v c hv
      exact ⟨v, by rw [hveq]; exact hcapmem i hi, Relation.ReflTransGen.refl⟩

/-- Witness for `getTerritories_invariants` on the spec's concrete scenario:
4 mutually connected vertices at height 0, one capital (vertex 0), K = 1 —
the whole clique is assigned to that capital, which owns itself. -/
theorem getTerritories_invariants_witness :
    getTerritories sqZero meshB hB [0] 1 9 = some [some 0, some 0, some 0, some 0] ∧
    towner [some 0, some 0, some 0, some 0] 0 = some 0 := by
  constructor
  · with_unfolding_all decide
  · exact (getTerritories_invariants sqZero meshB hB [0] 1 9
      [some 0, some 0, some 0, some 0] (by with_unfolding_all decide)
      (by with_unfolding_all decide)).2.1 0 (by with_unfolding_all decide)

end Terrain
